import Mathlib

/-!
Verification of the Moo physics engine core against its specification.

The embedding below translates the Rust sources under `src/moo/src/` into
Lean definitions:

* `Dual` embeds `core/math/ad.rs` (forward-mode AD scalars), generic over
  the scalar carrier so that exact claims can be settled over `ℚ`/`ℝ`.
* `FP` is the scalar carrier used for claims about IEEE-double domain
  errors: a real number together with an absorbing non-finite element
  (conflating `NaN` and the infinities) produced by division by zero and
  square roots of negative numbers.  Finite-overflow is not modelled.
* `PhaseSpace` embeds `core/state/mod.rs`, `LawRegistry` embeds
  `laws/registry/mod.rs` (a law is its `potential` function).
* Integrators, laws, constraints, the energy probe, the bitonic-sort stage
  generation of the GPU engine and the simulation facade are translated
  function by function.  Rust `Vec` indexing that can panic is modelled by
  `Option`-returning lookups where a claim concerns out-of-bounds access.
-/

namespace Moo

/-- Dual number for forward-mode AD, from `core/math/ad.rs`.
`val` is the primal value, `der` the derivative channel. -/
structure Dual (α : Type) where
  val : α
  der : α
  deriving DecidableEq, Repr

namespace Dual

variable {α : Type}

/-- `Dual::new`. -/
def mk' (v d : α) : Dual α := ⟨v, d⟩

/-- `Dual::variable` (seed `der = 1`). -/
def var [One α] (v : α) : Dual α := ⟨v, 1⟩

/-- `Dual::constant` (seed `der = 0`). -/
def constant [Zero α] (v : α) : Dual α := ⟨v, 0⟩

instance [Add α] : Add (Dual α) :=
  ⟨fun a b => ⟨a.val + b.val, a.der + b.der⟩⟩

instance [Sub α] : Sub (Dual α) :=
  ⟨fun a b => ⟨a.val - b.val, a.der - b.der⟩⟩

/-- Product rule, from `impl Mul for Dual`. -/
instance [Add α] [Mul α] : Mul (Dual α) :=
  ⟨fun a b => ⟨a.val * b.val, a.val * b.der + a.der * b.val⟩⟩

/-- Quotient rule, from `impl Div for Dual`. -/
instance [Sub α] [Mul α] [Div α] : Div (Dual α) :=
  ⟨fun a b => ⟨a.val / b.val, (a.der * b.val - a.val * b.der) / (b.val * b.val)⟩⟩

instance [Neg α] : Neg (Dual α) :=
  ⟨fun a => ⟨-a.val, -a.der⟩⟩

@[simp] theorem add_val [Add α] (a b : Dual α) : (a + b).val = a.val + b.val := rfl
@[simp] theorem add_der [Add α] (a b : Dual α) : (a + b).der = a.der + b.der := rfl
@[simp] theorem sub_val [Sub α] (a b : Dual α) : (a - b).val = a.val - b.val := rfl
@[simp] theorem sub_der [Sub α] (a b : Dual α) : (a - b).der = a.der - b.der := rfl
@[simp] theorem mul_val [Add α] [Mul α] (a b : Dual α) : (a * b).val = a.val * b.val := rfl
@[simp] theorem mul_der [Add α] [Mul α] (a b : Dual α) :
    (a * b).der = a.val * b.der + a.der * b.val := rfl
@[simp] theorem div_val [Sub α] [Mul α] [Div α] (a b : Dual α) :
    (a / b).val = a.val / b.val := rfl
@[simp] theorem div_der [Sub α] [Mul α] [Div α] (a b : Dual α) :
    (a / b).der = (a.der * b.val - a.val * b.der) / (b.val * b.val) := rfl
@[simp] theorem neg_val [Neg α] (a : Dual α) : (-a).val = -a.val := rfl
@[simp] theorem neg_der [Neg α] (a : Dual α) : (-a).der = -a.der := rfl
@[simp] theorem constant_val [Zero α] (v : α) : (constant v).val = v := rfl
@[simp] theorem constant_der [Zero α] (v : α) : (constant v).der = 0 := rfl

theorem ext {a b : Dual α} (hv : a.val = b.val) (hd : a.der = b.der) : a = b := by
  cases a; cases b; simp_all

@[simp] theorem mk_add_mk [Add α] (a b c d : α) :
    (⟨a, b⟩ : Dual α) + ⟨c, d⟩ = ⟨a + c, b + d⟩ := rfl
@[simp] theorem mk_sub_mk [Sub α] (a b c d : α) :
    (⟨a, b⟩ : Dual α) - ⟨c, d⟩ = ⟨a - c, b - d⟩ := rfl
@[simp] theorem mk_mul_mk [Add α] [Mul α] (a b c d : α) :
    (⟨a, b⟩ : Dual α) * ⟨c, d⟩ = ⟨a * c, a * d + b * c⟩ := rfl
@[simp] theorem mk_div_mk [Sub α] [Mul α] [Div α] (a b c d : α) :
    (⟨a, b⟩ : Dual α) / ⟨c, d⟩ = ⟨a / c, (b * c - a * d) / (c * c)⟩ := rfl
@[simp] theorem neg_mk [Neg α] (a b : α) : -(⟨a, b⟩ : Dual α) = ⟨-a, -b⟩ := rfl
theorem constant_def [Zero α] (v : α) : constant v = (⟨v, 0⟩ : Dual α) := rfl

instance [Zero α] : Zero (Dual α) := ⟨⟨0, 0⟩⟩

@[simp] theorem zero_val [Zero α] : (0 : Dual α).val = 0 := rfl
@[simp] theorem zero_der [Zero α] : (0 : Dual α).der = 0 := rfl

instance [AddCommMonoid α] : AddCommMonoid (Dual α) where
  add := (· + ·)
  zero := 0
  add_assoc a b c := ext (add_assoc a.val b.val c.val) (add_assoc a.der b.der c.der)
  zero_add a := ext (zero_add a.val) (zero_add a.der)
  add_zero a := ext (add_zero a.val) (add_zero a.der)
  add_comm a b := ext (add_comm a.val b.val) (add_comm a.der b.der)
  nsmul := nsmulRec
  nsmul_zero a := rfl
  nsmul_succ n a := rfl

theorem constant_zero [Zero α] : (constant 0 : Dual α) = 0 := rfl

end Dual

theorem foldl_add_eq_sum {M : Type} [AddCommMonoid M] (f : Nat → M) (l : List Nat)
    (init : M) :
    l.foldl (fun acc j => acc + f j) init = init + (l.map f).sum := by
  induction l generalizing init with
  | nil => simp
  | cons a l ih => simp [List.foldl_cons, ih, add_assoc]

theorem foldl_ite_add_eq_sum {M : Type} [AddCommMonoid M] (p : Nat → Prop)
    [DecidablePred p] (f : Nat → M) (l : List Nat) (init : M) :
    l.foldl (fun acc j => if p j then acc + f j else acc) init =
      init + (l.map fun j => if p j then f j else 0).sum := by
  induction l generalizing init with
  | nil => simp
  | cons a l ih =>
    rw [List.foldl_cons, List.map_cons, List.sum_cons]
    by_cases hp : p a
    · rw [if_pos hp, if_pos hp, ih, add_assoc]
    · rw [if_neg hp, if_neg hp, ih, zero_add]

theorem getD_set_self {β : Type} (l : List β) (i : Nat) (a d : β) (h : i < l.length) :
    (l.set i a).getD i d = a := by
  rw [List.getD_eq_getElem?_getD, List.getElem?_set_self h]
  rfl

theorem getD_set_ne {β : Type} (l : List β) {i j : Nat} (a d : β) (h : i ≠ j) :
    (l.set i a).getD j d = l.getD j d := by
  rw [List.getD_eq_getElem?_getD, List.getElem?_set_ne h, List.getD_eq_getElem?_getD]

theorem set_getD_self {β : Type} (l : List β) (i : Nat) (d : β) (h : i < l.length) :
    l.set i (l.getD i d) = l := by
  apply List.ext_getElem?
  intro j
  by_cases hj : i = j
  · subst hj
    rw [List.getElem?_set_self h, List.getD_eq_getElem?_getD, List.getElem?_eq_getElem h]
    rfl
  · exact List.getElem?_set_ne hj

/-- Abstraction of an IEEE double used for the domain-error claims: a value
is either a finite real or the absorbing non-finite element `nan`
(conflating NaN and the two infinities).  `nan` is produced exactly by
division by zero and square roots of negative numbers, and propagates
through every operation.  Finite-range overflow and rounding are not
modelled. -/
inductive FP where
  | fin (x : ℝ)
  | nan

namespace FP

noncomputable instance : Add FP :=
  ⟨fun a b => match a, b with
    | fin x, fin y => fin (x + y)
    | _, _ => nan⟩

noncomputable instance : Sub FP :=
  ⟨fun a b => match a, b with
    | fin x, fin y => fin (x - y)
    | _, _ => nan⟩

noncomputable instance : Mul FP :=
  ⟨fun a b => match a, b with
    | fin x, fin y => fin (x * y)
    | _, _ => nan⟩

noncomputable instance : Div FP :=
  ⟨fun a b => match a, b with
    | fin x, fin y => if y = 0 then nan else fin (x / y)
    | _, _ => nan⟩

noncomputable instance : Neg FP :=
  ⟨fun a => match a with
    | fin x => fin (-x)
    | nan => nan⟩

instance : Zero FP := ⟨fin 0⟩

/-- `f64::sqrt`: NaN on negative input. -/
noncomputable def sqrt : FP → FP
  | fin x => if x < 0 then nan else fin (Real.sqrt x)
  | nan => nan

@[simp] theorem fin_add_fin (x y : ℝ) : fin x + fin y = fin (x + y) := rfl
@[simp] theorem nan_add (a : FP) : nan + a = nan := rfl
@[simp] theorem add_nan (a : FP) : a + nan = nan := by cases a <;> rfl
@[simp] theorem fin_sub_fin (x y : ℝ) : fin x - fin y = fin (x - y) := rfl
@[simp] theorem fin_mul_fin (x y : ℝ) : fin x * fin y = fin (x * y) := rfl
@[simp] theorem nan_mul (a : FP) : nan * a = nan := rfl
@[simp] theorem mul_nan (a : FP) : a * nan = nan := by cases a <;> rfl
@[simp] theorem nan_div (a : FP) : nan / a = nan := rfl
@[simp] theorem div_nan (a : FP) : a / nan = nan := by cases a <;> rfl
@[simp] theorem neg_fin (x : ℝ) : -(fin x) = fin (-x) := rfl
@[simp] theorem neg_nan : -(nan : FP) = nan := rfl
theorem fin_div_fin (x y : ℝ) :
    fin x / fin y = if y = 0 then nan else fin (x / y) := rfl
@[simp] theorem fin_div_zero (x : ℝ) : fin x / fin 0 = nan := by
  rw [fin_div_fin, if_pos rfl]
@[simp] theorem sqrt_fin (x : ℝ) :
    sqrt (fin x) = if x < 0 then nan else fin (Real.sqrt x) := rfl
@[simp] theorem zero_def : (0 : FP) = fin 0 := rfl
theorem nan_ne_fin (x : ℝ) : nan ≠ fin x := by intro h; exact FP.noConfusion h

end FP

/-- A law is its `potential` operation (`laws/registry/mod.rs`, trait `Law`):
dual positions and real masses in, a dual potential out. -/
def Law (α : Type) : Type := List (Dual α) → List α → Dual α

/-- `LawRegistry`: an ordered list of laws. -/
structure LawRegistry (α : Type) where
  laws : List (Law α)

/-- `LawRegistry::potential`: fold the member potentials, starting from
`Dual::new(0.0, 0.0)`. -/
def LawRegistry.potential [Zero α] [Add α] (r : LawRegistry α) (q : List (Dual α))
    (mass : List α) : Dual α :=
  r.laws.foldl (fun total law => total + law q mass) ⟨0, 0⟩

/-- 3-vector, standing in for `glam::DVec3`. -/
structure V3 (α : Type) where
  x : α
  y : α
  z : α
  deriving DecidableEq, Repr

/-- Quaternion payload, standing in for `glam::DQuat`. -/
structure Quat (α : Type) where
  x : α
  y : α
  z : α
  w : α
  deriving DecidableEq, Repr

/-- Structure-of-arrays phase space, from `core/state/mod.rs`. -/
structure PhaseSpace (α : Type) where
  dof : Nat
  q : List α
  v : List α
  mass : List α
  radius : List α
  rot : List (Quat α)
  ang_v : List (V3 α)
  inertia : List (V3 α)
  t : α
  deriving DecidableEq, Repr

namespace PhaseSpace

/-- `PhaseSpace::new(dof)`: zero positions and velocities, unit masses,
unit radii (one per three DOF), no rigid bodies, `t = 0`.  Note that the
constructor performs no validation of `dof` and cannot fail. -/
def new (α : Type) [Zero α] [One α] (dof : Nat) : PhaseSpace α where
  dof := dof
  q := List.replicate dof 0
  v := List.replicate dof 0
  mass := List.replicate dof 1
  radius := List.replicate (dof / 3) 1
  rot := []
  ang_v := []
  inertia := []
  t := 0

/-- Rust `Vec::resize(n, fill)`: truncate or pad with `fill`. -/
def resizeList {β : Type} (l : List β) (n : Nat) (fill : β) : List β :=
  l.take n ++ List.replicate (n - l.length) fill

/-- `PhaseSpace::resize(new_dof)`: reshape `q`, `v`, `mass`, `radius`
without any validation. -/
def resize [Zero α] [One α] (s : PhaseSpace α) (newDof : Nat) : PhaseSpace α :=
  { s with
    dof := newDof
    q := resizeList s.q newDof 0
    v := resizeList s.v newDof 0
    mass := resizeList s.mass newDof 1
    radius := resizeList s.radius (newDof / 3) 1 }

end PhaseSpace

namespace SymplecticEuler

variable {α : Type} [Field α]

/-- Force-computation loop of `SymplecticEuler::step`
(`core/solve/mod.rs`): for each DOF index `i` in order, seed `der = 1` on
`q_dual[i]`, evaluate the registry potential, record `-potential.der`, and
reset the seed to `0`.  Returns the forces gathered for indices `< k`
together with the dual vector after `k` iterations. -/
def forcesAux (laws : LawRegistry α) (mass : List α) (qd0 : List (Dual α)) :
    Nat → List α × List (Dual α)
  | 0 => ([], qd0)
  | k + 1 =>
    let fq := forcesAux laws mass qd0 k
    let cur := fq.2.getD k ⟨0, 0⟩
    let seeded := fq.2.set k ⟨cur.val, 1⟩
    let f := -(laws.potential seeded mass).der
    (fq.1 ++ [f], seeded.set k ⟨cur.val, 0⟩)

/-- Update loop of `SymplecticEuler::step`: for each index `i` in order,
`v[i] += (forces[i] / mass[i]) * dt` then `q[i] += v[i] * dt` with the
freshly written velocity. -/
def integrateAux (dt : α) (forces mass : List α) (v q : List α) :
    Nat → List α × List α
  | 0 => (v, q)
  | k + 1 =>
    let p := integrateAux dt forces mass v q k
    let acceleration := forces.getD k 0 / mass.getD k 0
    let vn := p.1.getD k 0 + acceleration * dt
    (p.1.set k vn, p.2.set k (p.2.getD k 0 + vn * dt))

/-- `SymplecticEuler::step`: build the dual positions with zero seed,
run the force loop over all `dof` indices, run the update loop, and
advance `t` by `dt`. -/
def step (laws : LawRegistry α) (s : PhaseSpace α) (dt : α) : PhaseSpace α :=
  let n := s.dof
  let qd : List (Dual α) := s.q.map Dual.constant
  let forces := (forcesAux laws s.mass qd n).1
  let vq := integrateAux dt forces s.mass s.v s.q n
  { s with v := vq.1, q := vq.2, t := s.t + dt }

/-- The dual position vector described by the claim: value channel copies
`q`, derivative seed `1` on index `i` alone, `0` everywhere else. -/
def seedAt (q : List α) (i : Nat) : List (Dual α) :=
  (List.range q.length).map fun j => if j = i then ⟨q.getD j 0, 1⟩ else ⟨q.getD j 0, 0⟩

/-- The force the claim prescribes for DOF index `i`: minus the derivative
channel of the registry potential at `seedAt q i`. -/
def forceAt (laws : LawRegistry α) (q mass : List α) (i : Nat) : α :=
  -(laws.potential (seedAt q i) mass).der

theorem forcesAux_succ (laws : LawRegistry α) (mass : List α) (qd0 : List (Dual α))
    (k : Nat) :
    forcesAux laws mass qd0 (k + 1) =
      ((forcesAux laws mass qd0 k).1 ++
        [-(laws.potential ((forcesAux laws mass qd0 k).2.set k
          ⟨((forcesAux laws mass qd0 k).2.getD k ⟨0, 0⟩).val, 1⟩) mass).der],
       ((forcesAux laws mass qd0 k).2.set k
          ⟨((forcesAux laws mass qd0 k).2.getD k ⟨0, 0⟩).val, 1⟩).set k
          ⟨((forcesAux laws mass qd0 k).2.getD k ⟨0, 0⟩).val, 0⟩) := rfl

theorem integrateAux_succ (dt : α) (forces mass v q : List α) (k : Nat) :
    integrateAux dt forces mass v q (k + 1) =
      ((integrateAux dt forces mass v q k).1.set k
        ((integrateAux dt forces mass v q k).1.getD k 0 +
          forces.getD k 0 / mass.getD k 0 * dt),
       (integrateAux dt forces mass v q k).2.set k
        ((integrateAux dt forces mass v q k).2.getD k 0 +
          ((integrateAux dt forces mass v q k).1.getD k 0 +
            forces.getD k 0 / mass.getD k 0 * dt) * dt)) := rfl

theorem getD_map_constant (q : List α) (k : Nat) :
    (q.map Dual.constant).getD k ⟨0, 0⟩ = ⟨q.getD k 0, 0⟩ := by
  by_cases h : k < q.length
  · rw [List.getD_eq_getElem?_getD, List.getElem?_map, List.getD_eq_getElem?_getD,
      List.getElem?_eq_getElem h]
    rfl
  · push_neg at h
    rw [List.getD_eq_getElem?_getD, List.getD_eq_getElem?_getD,
      List.getElem?_eq_none (by simpa using h), List.getElem?_eq_none h]
    rfl

theorem forcesAux_snd (laws : LawRegistry α) (mass : List α) (q : List α) (k : Nat) :
    (forcesAux laws mass (q.map Dual.constant) k).2 = q.map Dual.constant := by
  induction k with
  | zero => rfl
  | succ k ih =>
    rw [forcesAux_succ, ih, List.set_set, getD_map_constant]
    by_cases h : k < q.length
    · have : (⟨q.getD k 0, 0⟩ : Dual α) = (q.map Dual.constant).getD k ⟨0, 0⟩ :=
        (getD_map_constant q k).symm
      rw [this, set_getD_self]
      simpa using h
    · exact List.set_eq_of_length_le (by simpa using Nat.le_of_not_lt h)

theorem seeded_eq_seedAt (q : List α) (k : Nat) (hk : k < q.length) :
    (q.map Dual.constant).set k ⟨q.getD k 0, 1⟩ = seedAt q k := by
  apply List.ext_getElem?
  intro j
  simp only [seedAt, List.getElem?_map]
  by_cases hj : j < q.length
  · rw [List.getElem?_range hj]
    by_cases hjk : j = k
    · subst hjk
      rw [List.getElem?_set_self (by simpa using hj)]
      simp
    · rw [List.getElem?_set_ne (fun h => hjk h.symm), List.getElem?_map,
        List.getElem?_eq_getElem hj]
      simp [hjk, List.getD_eq_getElem?_getD, List.getElem?_eq_getElem hj, Dual.constant]
  · push_neg at hj
    rw [List.getElem?_eq_none (by simpa using hj), List.getElem?_eq_none (by simpa using hj)]
    rfl

theorem forcesAux_fst (laws : LawRegistry α) (mass : List α) (q : List α) (k : Nat)
    (hk : k ≤ q.length) :
    (forcesAux laws mass (q.map Dual.constant) k).1 =
      (List.range k).map (forceAt laws q mass) := by
  induction k with
  | zero => rfl
  | succ k ih =>
    have hk' : k < q.length := Nat.lt_of_lt_of_le (Nat.lt_succ_self k) hk
    rw [forcesAux_succ, forcesAux_snd, getD_map_constant]
    show _ ++ [-(laws.potential ((q.map Dual.constant).set k ⟨q.getD k 0, 1⟩) mass).der] = _
    rw [ih (Nat.le_of_lt hk'), List.range_succ, List.map_append,
      seeded_eq_seedAt q k hk']
    rfl

theorem integrateAux_get (dt : α) (forces mass v q : List α) (k : Nat)
    (hkv : k ≤ v.length) (hkq : k ≤ q.length) :
    ((integrateAux dt forces mass v q k).1.length = v.length ∧
      (integrateAux dt forces mass v q k).2.length = q.length) ∧
    (∀ i, k ≤ i →
      (integrateAux dt forces mass v q k).1.getD i 0 = v.getD i 0 ∧
      (integrateAux dt forces mass v q k).2.getD i 0 = q.getD i 0) ∧
    (∀ i, i < k →
      (integrateAux dt forces mass v q k).1.getD i 0 =
        v.getD i 0 + (forces.getD i 0 / mass.getD i 0) * dt ∧
      (integrateAux dt forces mass v q k).2.getD i 0 =
        q.getD i 0 + (v.getD i 0 + (forces.getD i 0 / mass.getD i 0) * dt) * dt) := by
  induction k with
  | zero =>
    refine ⟨⟨rfl, rfl⟩, fun i _ => ⟨rfl, rfl⟩, fun i hi => absurd hi (Nat.not_lt_zero i)⟩
  | succ k ih =>
    obtain ⟨⟨hl1, hl2⟩, hun, hdone⟩ := ih (Nat.le_of_succ_le hkv) (Nat.le_of_succ_le hkq)
    have hkv' : k < v.length := hkv
    have hkq' : k < q.length := hkq
    rw [integrateAux_succ]
    refine ⟨⟨by simpa using hl1, by simpa using hl2⟩, ?_, ?_⟩
    · intro i hi
      have hki : k ≠ i := Nat.ne_of_lt (Nat.lt_of_succ_le hi)
      exact ⟨by rw [getD_set_ne _ _ _ hki]; exact (hun i (Nat.le_of_succ_le hi)).1,
        by rw [getD_set_ne _ _ _ hki]; exact (hun i (Nat.le_of_succ_le hi)).2⟩
    · intro i hi
      rcases Nat.lt_succ_iff_lt_or_eq.mp hi with hik | hik
      · have hki : k ≠ i := fun h => absurd (h ▸ hik) (Nat.lt_irrefl k)
        exact ⟨by rw [getD_set_ne _ _ _ hki]; exact (hdone i hik).1,
          by rw [getD_set_ne _ _ _ hki]; exact (hdone i hik).2⟩
      · subst hik
        have hv0 : (integrateAux dt forces mass v q i).1.getD i 0 = v.getD i 0 :=
          (hun i (Nat.le_refl i)).1
        have hq0 : (integrateAux dt forces mass v q i).2.getD i 0 = q.getD i 0 :=
          (hun i (Nat.le_refl i)).2
        constructor
        · rw [getD_set_self _ _ _ _ (by rwa [hl1]), hv0]
        · rw [getD_set_self _ _ _ _ (by rwa [hl2]), hq0, hv0]

end SymplecticEuler

/-- The `for i in 0..n { for j in (i+1)..n { … } }` pair enumeration used by
`Gravity::potential` and `SphereConstraint::project`. -/
def pairs (n : Nat) : List (Nat × Nat) :=
  (List.range n).flatMap fun i => ((List.range n).drop (i + 1)).map fun j => (i, j)

/-- `Dual::inv` from `laws/classical/gravity.rs`: `1/x` with derivative
`-d/x²`, with no zero check. -/
noncomputable def Dual.inv (a : Dual FP) : Dual FP :=
  ⟨FP.fin 1 / a.val, -a.der / (a.val * a.val)⟩

/-- `Gravity` (`laws/classical/gravity.rs`): Newtonian pairwise potential
`V = -G·Σ m_i·m_j / r_ij` over the IEEE-double abstraction `FP`.  The
square-root derivative is formed manually as
`(0.5 · d(r²)) / sqrt(r²)` and the reciprocal uses `Dual::inv`; neither
guards against `r = 0`.  List reads stay in bounds for every index the
loops produce, so they are embedded with `getD`. -/
structure Gravity where
  g : ℝ

noncomputable def Gravity.potential (grav : Gravity) (q : List (Dual FP))
    (mass : List ℝ) : Dual FP :=
  let n := q.length / 3
  let stride := if mass.length = q.length then 3 else 1
  if q.length % 3 ≠ 0 then Dual.constant 0
  else
    (pairs n).foldl
      (fun total ij =>
        let idx_i := ij.1 * 3
        let idx_j := ij.2 * 3
        let dx := q.getD idx_i ⟨0, 0⟩ - q.getD idx_j ⟨0, 0⟩
        let dy := q.getD (idx_i + 1) ⟨0, 0⟩ - q.getD (idx_j + 1) ⟨0, 0⟩
        let dz := q.getD (idx_i + 2) ⟨0, 0⟩ - q.getD (idx_j + 2) ⟨0, 0⟩
        let dist_sq := dx * dx + dy * dy + dz * dz
        let dist : Dual FP :=
          ⟨FP.sqrt dist_sq.val, FP.fin 0.5 * dist_sq.der / FP.sqrt dist_sq.val⟩
        let m1m2 := mass.getD (ij.1 * stride) 0 * mass.getD (ij.2 * stride) 0
        total + dist.inv * Dual.constant (FP.fin (-grav.g * m1m2)))
      (Dual.constant 0)

/-- The squared-distance dual `dx·dx + dy·dy + dz·dz` between particles `i`
and `j`, shared by the laws (`idx_i = i*3`, `idx_j = j*3`). -/
def pairDistSq [Add α] [Sub α] [Mul α] [Zero α] (q : List (Dual α)) (i j : Nat) :
    Dual α :=
  let idx_i := i * 3
  let idx_j := j * 3
  let dx := q.getD idx_i ⟨0, 0⟩ - q.getD idx_j ⟨0, 0⟩
  let dy := q.getD (idx_i + 1) ⟨0, 0⟩ - q.getD (idx_j + 1) ⟨0, 0⟩
  let dz := q.getD (idx_i + 2) ⟨0, 0⟩ - q.getD (idx_j + 2) ⟨0, 0⟩
  dx * dx + dy * dy + dz * dz

/-- `SPH` (`laws/continuum/sph.rs`): smoothing radius, rest density,
stiffness and the Poly6 coefficient precomputed by `SPH::new`. -/
structure SPH where
  h : ℝ
  rho0 : ℝ
  k : ℝ
  poly6_coeff : ℝ

/-- `SPH::new`: stores `h`, `rho0`, `k` and
`poly6_coeff = 315 / (64·π·h⁹)`. -/
noncomputable def SPH.new (h rho0 k : ℝ) : SPH :=
  ⟨h, rho0, k, 315 / (64 * Real.pi * h ^ 9)⟩

/-- Density loop of `SPH::potential`: for particle `i`, fold over all `j`
(including `j = i`), adding `mass[j·stride] · poly6_coeff·(h²−r²)³`
whenever `r² < h²`. -/
noncomputable def SPH.densityCode (sph : SPH) (q : List (Dual ℝ)) (mass : List ℝ)
    (stride : Nat) (h_sq : ℝ) (i : Nat) : Dual ℝ :=
  (List.range (q.length / 3)).foldl
    (fun rho j =>
      if (pairDistSq q i j).val < h_sq then
        rho + Dual.constant (mass.getD (j * stride) 0) *
          (Dual.constant sph.poly6_coeff * (Dual.constant h_sq - pairDistSq q i j) *
            (Dual.constant h_sq - pairDistSq q i j) *
            (Dual.constant h_sq - pairDistSq q i j))
      else rho)
    (Dual.constant 0)

/-- `SPH::potential`: compute all densities, then fold the stiffness
potential `0.5·k·(ρ−ρ₀)²·vol` with `vol = m/ρ` short-circuited to zero
unless `ρ > 1e-6`. -/
noncomputable def SPH.potential (sph : SPH) (q : List (Dual ℝ)) (mass : List ℝ) :
    Dual ℝ :=
  let n := q.length / 3
  let stride := if mass.length = q.length then 3 else 1
  let h_sq := sph.h * sph.h
  let densities := (List.range n).map (sph.densityCode q mass stride h_sq)
  (List.range n).foldl
    (fun total i =>
      let rho := densities.getD i ⟨0, 0⟩
      let m := mass.getD (i * stride) 0
      let vol := if 1e-6 < rho.val then Dual.constant m / rho else Dual.constant 0
      let delta := rho - Dual.constant sph.rho0
      total + Dual.constant (0.5 * sph.k) * delta * delta * vol)
    (Dual.constant 0)

/-- The per-particle density the claim describes: the sum over all `j`
(including `j = i`) of `m_j · C·(h²−r²)³` restricted to `r² < h²`, with
`C = 315/(64·π·h⁹)`. -/
noncomputable def SPH.densitySpec (hval : ℝ) (q : List (Dual ℝ)) (mass : List ℝ)
    (i : Nat) : Dual ℝ :=
  let n := q.length / 3
  let stride := if mass.length = q.length then 3 else 1
  let C := 315 / (64 * Real.pi * hval ^ 9)
  ((List.range n).map fun j =>
    if (pairDistSq q i j).val < hval ^ 2 then
      Dual.constant (mass.getD (j * stride) 0) *
        (Dual.constant C * ((Dual.constant (hval ^ 2) - pairDistSq q i j) *
          ((Dual.constant (hval ^ 2) - pairDistSq q i j) *
            (Dual.constant (hval ^ 2) - pairDistSq q i j))))
    else 0).sum

/-- The total the claim describes: `Σᵢ 0.5·k·(ρᵢ−ρ₀)²·(mᵢ/ρᵢ)` with the
volume factor replaced by zero when `ρᵢ` is below the `1e-6` epsilon. -/
noncomputable def SPH.potentialSpec (hval rho0 k : ℝ) (q : List (Dual ℝ))
    (mass : List ℝ) : Dual ℝ :=
  let n := q.length / 3
  let stride := if mass.length = q.length then 3 else 1
  ((List.range n).map fun i =>
    let rho := SPH.densitySpec hval q mass i
    let vol := if 1e-6 < rho.val then Dual.constant (mass.getD (i * stride) 0) / rho
      else 0
    Dual.constant (0.5 * k) * ((rho - Dual.constant rho0) * (rho - Dual.constant rho0)) *
      vol).sum

theorem getD_range_map {β : Type} (f : Nat → β) (n i : Nat) (d : β) (hi : i < n) :
    ((List.range n).map f).getD i d = f i := by
  rw [List.getD_eq_getElem?_getD, List.getElem?_map, List.getElem?_range hi]
  rfl

theorem density_term_eq (m C : ℝ) (T : Dual ℝ) :
    Dual.constant m * (Dual.constant C * T * T * T) =
      Dual.constant m * (Dual.constant C * (T * (T * T))) := by
  apply Dual.ext <;>
    simp only [Dual.mul_val, Dual.mul_der, Dual.constant_val, Dual.constant_der] <;> ring

theorem u_vol_term_eq (c : ℝ) (d v : Dual ℝ) :
    Dual.constant c * d * d * v = Dual.constant c * (d * d) * v := by
  apply Dual.ext <;>
    simp only [Dual.mul_val, Dual.mul_der, Dual.constant_val, Dual.constant_der] <;> ring

theorem densityCode_eq (h rho0 k : ℝ) (q : List (Dual ℝ)) (mass : List ℝ) (i : Nat) :
    (SPH.new h rho0 k).densityCode q mass (if mass.length = q.length then 3 else 1)
      (h * h) i = SPH.densitySpec h q mass i := by
  unfold SPH.densityCode SPH.densitySpec
  rw [show (SPH.new h rho0 k).poly6_coeff = 315 / (64 * Real.pi * h ^ 9) from rfl]
  refine (foldl_ite_add_eq_sum _ _ _ _).trans ?_
  rw [Dual.constant_zero, zero_add]
  apply congrArg List.sum
  apply List.map_congr_left
  intro j _
  have hh : h * h = h ^ 2 := by ring
  rw [hh]
  by_cases hc : (pairDistSq q i j).val < h ^ 2
  · rw [if_pos hc, if_pos hc]
    exact density_term_eq _ _ _
  · rw [if_neg hc, if_neg hc]

namespace V3

instance [Add α] : Add (V3 α) := ⟨fun a b => ⟨a.x + b.x, a.y + b.y, a.z + b.z⟩⟩
instance [Sub α] : Sub (V3 α) := ⟨fun a b => ⟨a.x - b.x, a.y - b.y, a.z - b.z⟩⟩

/-- `glam` scalar multiplication `v * c`. -/
def smul [Mul α] (c : α) (v : V3 α) : V3 α := ⟨c * v.x, c * v.y, c * v.z⟩

/-- `glam` component-wise vector product. -/
def hadamard [Mul α] (a b : V3 α) : V3 α := ⟨a.x * b.x, a.y * b.y, a.z * b.z⟩

/-- `glam` scalar division `v / c`. -/
def divScalar [Div α] (v : V3 α) (c : α) : V3 α := ⟨v.x / c, v.y / c, v.z / c⟩

def dot [Add α] [Mul α] (a b : V3 α) : α := a.x * b.x + a.y * b.y + a.z * b.z

/-- `glam::DVec3::length_squared`. -/
def lengthSq [Add α] [Mul α] (v : V3 α) : α := dot v v

/-- `glam::DVec3::length`. -/
noncomputable def norm (v : V3 ℝ) : ℝ := Real.sqrt (lengthSq v)

/-- `glam::DVec3::normalize_or_zero` over the reals: the unit vector along
`v`, or zero when `v` is zero. -/
noncomputable def normalizeOrZero (v : V3 ℝ) : V3 ℝ :=
  if lengthSq v = 0 then ⟨0, 0, 0⟩ else divScalar v (Real.sqrt (lengthSq v))

@[simp] theorem add_def [Add α] (a b : V3 α) :
    a + b = ⟨a.x + b.x, a.y + b.y, a.z + b.z⟩ := rfl
@[simp] theorem sub_def [Sub α] (a b : V3 α) :
    a - b = ⟨a.x - b.x, a.y - b.y, a.z - b.z⟩ := rfl

theorem lengthSq_nonneg (v : V3 ℝ) : 0 ≤ lengthSq v :=
  add_nonneg (add_nonneg (mul_self_nonneg v.x) (mul_self_nonneg v.y))
    (mul_self_nonneg v.z)

theorem norm_nonneg (v : V3 ℝ) : 0 ≤ norm v := Real.sqrt_nonneg _

theorem sq_norm (v : V3 ℝ) : norm v ^ 2 = lengthSq v :=
  Real.sq_sqrt (lengthSq_nonneg v)

theorem norm_smul (c : ℝ) (v : V3 ℝ) : norm (smul c v) = |c| * norm v := by
  have h : lengthSq (smul c v) = c ^ 2 * lengthSq v := by
    simp only [lengthSq, dot, smul]
    ring
  rw [norm, h, Real.sqrt_mul (sq_nonneg c), Real.sqrt_sq_eq_abs]
  rfl

theorem norm_normalizeOrZero (v : V3 ℝ) (hv : lengthSq v ≠ 0) :
    norm (normalizeOrZero v) = 1 := by
  have hpos : 0 < lengthSq v := lt_of_le_of_ne (lengthSq_nonneg v) (Ne.symm hv)
  have hs : 0 < Real.sqrt (lengthSq v) := Real.sqrt_pos.mpr hpos
  rw [normalizeOrZero, if_neg hv]
  have h : lengthSq (divScalar v (Real.sqrt (lengthSq v))) =
      lengthSq v / Real.sqrt (lengthSq v) ^ 2 := by
    simp only [lengthSq, dot, divScalar]
    ring
  rw [norm, h, Real.sq_sqrt (le_of_lt hpos), div_self (ne_of_gt hpos), Real.sqrt_one]

theorem cauchy_schwarz (a b : V3 ℝ) : dot a b ^ 2 ≤ lengthSq a * lengthSq b := by
  simp only [lengthSq, dot]
  nlinarith [sq_nonneg (a.x * b.y - a.y * b.x), sq_nonneg (a.x * b.z - a.z * b.x),
    sq_nonneg (a.y * b.z - a.z * b.y)]

theorem dot_ge_neg_norms (a b : V3 ℝ) : -(norm a * norm b) ≤ dot a b := by
  have hs2 : dot a b ^ 2 ≤ (norm a * norm b) ^ 2 := by
    rw [mul_pow, sq_norm, sq_norm]
    exact cauchy_schwarz a b
  have habs : |dot a b| ≤ norm a * norm b := by
    have h := Real.sqrt_le_sqrt hs2
    rw [Real.sqrt_sq_eq_abs, Real.sqrt_sq_eq_abs,
      abs_of_nonneg (mul_nonneg (norm_nonneg a) (norm_nonneg b))] at h
    exact h
  calc -(norm a * norm b) ≤ -|dot a b| := neg_le_neg habs
    _ ≤ dot a b := neg_abs_le _

theorem lengthSq_add (a b : V3 ℝ) :
    lengthSq (a + b) = lengthSq a + 2 * dot a b + lengthSq b := by
  simp only [lengthSq, dot, add_def]
  ring

/-- Reverse triangle inequality for the explicit Euclidean norm. -/
theorem norm_add_ge (a b : V3 ℝ) : norm b - norm a ≤ norm (a + b) := by
  have h2 : (norm b - norm a) ^ 2 ≤ lengthSq (a + b) := by
    have := dot_ge_neg_norms a b
    have ha := sq_norm a
    have hb := sq_norm b
    rw [lengthSq_add]
    nlinarith
  calc norm b - norm a ≤ |norm b - norm a| := le_abs_self _
    _ = Real.sqrt ((norm b - norm a) ^ 2) := (Real.sqrt_sq_eq_abs _).symm
    _ ≤ Real.sqrt (lengthSq (a + b)) := Real.sqrt_le_sqrt h2
    _ = norm (a + b) := rfl

end V3

/-- Checked write standing in for Rust's panicking `v[i] = x`. -/
def setChecked {β : Type} (l : List β) (i : Nat) (a : β) : Option (List β) :=
  if i < l.length then some (l.set i a) else none

/-- `FloorConstraint` (`core/solve/constraints.rs`). -/
structure FloorConstraint where
  y_level : ℝ
  restitution : ℝ

/-- Body of the `FloorConstraint::project` loop for particle `i`
(`idx = i*3`): clamp `q[idx+1]` to the floor, reflect a downward
`v[idx+1]` with restitution and apply tangential friction `0.9`.
Out-of-bounds indexing is `none` (a Rust panic). -/
noncomputable def FloorConstraint.projectParticle (fc : FloorConstraint)
    (s : PhaseSpace ℝ) (i : Nat) : Option (PhaseSpace ℝ) := do
  let idx := i * 3
  let y ← s.q[idx + 1]?
  if y < fc.y_level then
    let q1 ← setChecked s.q (idx + 1) fc.y_level
    let vy ← s.v[idx + 1]?
    if vy < 0 then
      let v1 ← setChecked s.v (idx + 1) (-vy * fc.restitution)
      let vx ← v1[idx]?
      let v2 ← setChecked v1 idx (vx * 0.9)
      let vz ← v2[idx + 2]?
      let v3 ← setChecked v2 (idx + 2) (vz * 0.9)
      pure { s with q := q1, v := v3 }
    else
      pure { s with q := q1 }
  else
    pure s

/-- `FloorConstraint::project`: the particle loop over `n = dof / 3`. -/
noncomputable def FloorConstraint.project (fc : FloorConstraint) (s : PhaseSpace ℝ) :
    Option (PhaseSpace ℝ) :=
  (List.range (s.dof / 3)).foldlM fc.projectParticle s

/-- `SphereConstraint` (`core/solve/constraints.rs`). -/
structure SphereConstraint where
  restitution : ℝ
  min_separation : ℝ

/-- `DEFAULT_MIN_SEPARATION`. -/
def defaultMinSeparation : ℝ := 1e-6

/-- `SphereConstraint::new`. -/
def SphereConstraint.new (restitution : ℝ) : SphereConstraint :=
  ⟨restitution, defaultMinSeparation⟩

/-- `SphereConstraint::with_min_separation`. -/
noncomputable def SphereConstraint.with_min_separation (restitution m : ℝ) :
    SphereConstraint := ⟨restitution, |m|⟩

/-- The position of particle `i` as a 3-vector of `getD` reads. -/
def posVec (s : PhaseSpace ℝ) (i : Nat) : V3 ℝ :=
  ⟨s.q.getD (i * 3) 0, s.q.getD (i * 3 + 1) 0, s.q.getD (i * 3 + 2) 0⟩

/-- Body of the `SphereConstraint::project` double loop for the pair
`(i, j)`: on squared-distance overlap, derive the contact normal (with the
relative-velocity / x-axis fallback below `min_sep`), apply the positional
half-correction to both endpoints, and on approach apply the symmetric
impulse split by inverse mass, reading `mass[i*3]` and `mass[j*3]`.
Out-of-bounds indexing is `none` (a Rust panic); the `q` writes reuse
indices whose reads already succeeded, so they use plain `set`. -/
noncomputable def SphereConstraint.pairStep (sc : SphereConstraint) (min_sep : ℝ)
    (s : PhaseSpace ℝ) (ij : Nat × Nat) : Option (PhaseSpace ℝ) := do
  let idx_i := ij.1 * 3
  let idx_j := ij.2 * 3
  let p1x ← s.q[idx_i]?
  let p1y ← s.q[idx_i + 1]?
  let p1z ← s.q[idx_i + 2]?
  let p2x ← s.q[idx_j]?
  let p2y ← s.q[idx_j + 1]?
  let p2z ← s.q[idx_j + 2]?
  let ri ← s.radius[ij.1]?
  let rj ← s.radius[ij.2]?
  let diff : V3 ℝ := (⟨p1x, p1y, p1z⟩ : V3 ℝ) - ⟨p2x, p2y, p2z⟩
  let dist_sq := V3.lengthSq diff
  let r_sum := ri + rj
  if dist_sq < r_sum * r_sum then
    let v1x ← s.v[idx_i]?
    let v1y ← s.v[idx_i + 1]?
    let v1z ← s.v[idx_i + 2]?
    let v2x ← s.v[idx_j]?
    let v2y ← s.v[idx_j + 1]?
    let v2z ← s.v[idx_j + 2]?
    let rel_vel : V3 ℝ := (⟨v1x, v1y, v1z⟩ : V3 ℝ) - ⟨v2x, v2y, v2z⟩
    let nd : V3 ℝ × ℝ :=
      if dist_sq < min_sep * min_sep then
        let fb := V3.normalizeOrZero rel_vel
        (if V3.lengthSq fb = 0 then ⟨1, 0, 0⟩ else fb, min_sep)
      else
        (V3.divScalar diff (Real.sqrt dist_sq), Real.sqrt dist_sq)
    let overlap := r_sum - nd.2
    if overlap ≤ 0 then
      pure s
    else
      let correction := V3.smul (overlap * 0.5) nd.1
      let q1 := ((s.q.set idx_i (p1x + correction.x)).set (idx_i + 1)
        (p1y + correction.y)).set (idx_i + 2) (p1z + correction.z)
      let q2 := ((q1.set idx_j (p2x - correction.x)).set (idx_j + 1)
        (p2y - correction.y)).set (idx_j + 2) (p2z - correction.z)
      let vel_along_normal := V3.dot rel_vel nd.1
      if vel_along_normal < 0 then
        let j_impulse := -(1 + sc.restitution) * vel_along_normal
        let m1 ← s.mass[ij.1 * 3]?
        let m2 ← s.mass[ij.2 * 3]?
        let inv_mass1 := 1 / m1
        let inv_mass2 := 1 / m2
        let impulse := V3.smul (j_impulse / (inv_mass1 + inv_mass2)) nd.1
        let v1 := ((s.v.set idx_i (v1x + impulse.x * inv_mass1)).set (idx_i + 1)
          (v1y + impulse.y * inv_mass1)).set (idx_i + 2) (v1z + impulse.z * inv_mass1)
        let v2 := ((v1.set idx_j (v2x - impulse.x * inv_mass2)).set (idx_j + 1)
          (v2y - impulse.y * inv_mass2)).set (idx_j + 2) (v2z - impulse.z * inv_mass2)
        pure { s with q := q2, v := v2 }
      else
        pure { s with q := q2 }
  else
    pure s

/-- `SphereConstraint::project`: `min_sep = max(min_separation, 1e-6)`, then
the ordered pair loop. -/
noncomputable def SphereConstraint.project (sc : SphereConstraint)
    (s : PhaseSpace ℝ) : Option (PhaseSpace ℝ) :=
  (pairs (s.dof / 3)).foldlM (sc.pairStep (max sc.min_separation defaultMinSeparation)) s

/-- Translational kinetic-energy loop of `EnergyProbe::measure`
(`investigation/probe/mod.rs`): for `i in 0..n`, accumulate
`0.5 * mass[i] * v[i] * v[i]`, with `mass[i]` read before `v[i]`.
Out-of-bounds indexing is `none` (a Rust panic). -/
noncomputable def kineticAux (mass v : List ℝ) : Nat → Option ℝ
  | 0 => some 0
  | i + 1 => do
    let acc ← kineticAux mass v i
    let m ← mass[i]?
    let vi ← v[i]?
    pure (acc + 0.5 * m * vi * vi)

/-- Rotational kinetic-energy loop of `EnergyProbe::measure`: for
`i in 0..rot.len()`, accumulate `0.5 * w.dot(w * inertia)`. -/
noncomputable def rotAux (ang_v inertia : List (V3 ℝ)) : Nat → Option ℝ
  | 0 => some 0
  | i + 1 => do
    let acc ← rotAux ang_v inertia i
    let w ← ang_v[i]?
    let inr ← inertia[i]?
    pure (acc + 0.5 * V3.dot w (V3.hadamard w inr))

/-- `EnergyProbe::measure`: translational kinetic + rotational kinetic +
the value channel of the registry potential at zero-seeded duals. -/
noncomputable def EnergyProbe.measure (s : PhaseSpace ℝ) (laws : LawRegistry ℝ) :
    Option ℝ := do
  let kin ← kineticAux s.mass s.v s.dof
  let rk ← rotAux s.ang_v s.inertia s.rot.length
  pure (kin + rk + (laws.potential (s.q.map Dual.constant) s.mass).val)

theorem someBind {β γ : Type} (a : β) (f : β → Option γ) : (some a >>= f) = f a := rfl

theorem noneBind {β γ : Type} (f : β → Option γ) : (none >>= f) = (none : Option γ) := rfl

theorem getElem?_eq_getD {β : Type} (l : List β) (i : Nat) (d : β) (h : i < l.length) :
    l[i]? = some (l.getD i d) := by
  rw [List.getElem?_eq_getElem h, List.getD_eq_getElem?_getD, List.getElem?_eq_getElem h]
  rfl

theorem foldlM_id {σ β : Type} (f : σ → β → Option σ) (l : List β) (s : σ)
    (h : ∀ b ∈ l, f s b = some s) : l.foldlM f s = some s := by
  induction l with
  | nil => rfl
  | cons a l ih =>
    rw [List.foldlM_cons, h a (List.mem_cons_self a l)]
    exact ih fun b hb => h b (List.mem_cons_of_mem a hb)

theorem mem_pairs {n : Nat} {ij : Nat × Nat} (h : ij ∈ pairs n) :
    ij.1 < ij.2 ∧ ij.2 < n := by
  unfold pairs at h
  rw [List.mem_flatMap] at h
  obtain ⟨i, hi, hmem⟩ := h
  rw [List.mem_map] at hmem
  obtain ⟨j, hj, he⟩ := hmem
  subst he
  refine ⟨?_, List.mem_range.mp (List.mem_of_mem_drop hj)⟩
  obtain ⟨k, hk, hke⟩ := List.mem_iff_getElem.mp hj
  rw [List.getElem_drop] at hke
  rw [← hke, List.getElem_range]
  omega

/-- Claim C8, floor part: a state in which no particle is below the floor
level is left exactly unchanged by `FloorConstraint::project`. -/
theorem floor_noop (fc : FloorConstraint) (s : PhaseSpace ℝ)
    (hq : s.q.length = s.dof)
    (hsat : ∀ i, i < s.dof / 3 → fc.y_level ≤ s.q.getD (i * 3 + 1) 0) :
    fc.project s = some s := by
  unfold FloorConstraint.project
  apply foldlM_id
  intro i hi
  have hin : i < s.dof / 3 := List.mem_range.mp hi
  have hidx : i * 3 + 1 < s.q.length := by rw [hq]; omega
  unfold FloorConstraint.projectParticle
  simp only [getElem?_eq_getD s.q (i * 3 + 1) 0 hidx, someBind]
  rw [if_neg (not_lt.mpr (hsat i hin))]
  rfl

/-- Claim C8, sphere part: a state in which every pair is separated by at
least the sum of radii is left exactly unchanged by
`SphereConstraint::project` (any `min_separation`). -/
theorem sphere_noop (sc : SphereConstraint) (s : PhaseSpace ℝ)
    (hq : s.q.length = s.dof) (hv : s.v.length = s.dof)
    (hr : s.radius.length = s.dof / 3)
    (hsat : ∀ i j, i < j → j < s.dof / 3 →
      s.radius.getD i 0 + s.radius.getD j 0 ≤ V3.norm (posVec s i - posVec s j)) :
    sc.project s = some s := by
  unfold SphereConstraint.project
  apply foldlM_id
  intro ij hij
  obtain ⟨hij1, hij2⟩ := mem_pairs hij
  have hMSpos : 0 < max sc.min_separation defaultMinSeparation := by
    have : (0:ℝ) < defaultMinSeparation := by norm_num [defaultMinSeparation]
    exact lt_of_lt_of_le this (le_max_right _ _)
  have hub : s.radius.getD ij.1 0 + s.radius.getD ij.2 0 ≤
      V3.norm ((⟨s.q.getD (ij.1 * 3) 0, s.q.getD (ij.1 * 3 + 1) 0,
        s.q.getD (ij.1 * 3 + 2) 0⟩ : V3 ℝ) -
        ⟨s.q.getD (ij.2 * 3) 0, s.q.getD (ij.2 * 3 + 1) 0,
          s.q.getD (ij.2 * 3 + 2) 0⟩) :=
    hsat ij.1 ij.2 hij1 hij2
  unfold SphereConstraint.pairStep
  simp only [getElem?_eq_getD s.q (ij.1 * 3) 0 (by rw [hq]; omega),
    getElem?_eq_getD s.q (ij.1 * 3 + 1) 0 (by rw [hq]; omega),
    getElem?_eq_getD s.q (ij.1 * 3 + 2) 0 (by rw [hq]; omega),
    getElem?_eq_getD s.q (ij.2 * 3) 0 (by rw [hq]; omega),
    getElem?_eq_getD s.q (ij.2 * 3 + 1) 0 (by rw [hq]; omega),
    getElem?_eq_getD s.q (ij.2 * 3 + 2) 0 (by rw [hq]; omega),
    getElem?_eq_getD s.radius ij.1 0 (by rw [hr]; omega),
    getElem?_eq_getD s.radius ij.2 0 (by rw [hr]; omega),
    getElem?_eq_getD s.v (ij.1 * 3) 0 (by rw [hv]; omega),
    getElem?_eq_getD s.v (ij.1 * 3 + 1) 0 (by rw [hv]; omega),
    getElem?_eq_getD s.v (ij.1 * 3 + 2) 0 (by rw [hv]; omega),
    getElem?_eq_getD s.v (ij.2 * 3) 0 (by rw [hv]; omega),
    getElem?_eq_getD s.v (ij.2 * 3 + 1) 0 (by rw [hv]; omega),
    getElem?_eq_getD s.v (ij.2 * 3 + 2) 0 (by rw [hv]; omega),
    someBind]
  generalize hD : ((⟨s.q.getD (ij.1 * 3) 0, s.q.getD (ij.1 * 3 + 1) 0,
      s.q.getD (ij.1 * 3 + 2) 0⟩ : V3 ℝ) -
      ⟨s.q.getD (ij.2 * 3) 0, s.q.getD (ij.2 * 3 + 1) 0,
        s.q.getD (ij.2 * 3 + 2) 0⟩) = D at hub ⊢
  generalize hRS : s.radius.getD ij.1 0 + s.radius.getD ij.2 0 = RS at hub ⊢
  generalize hMS : max sc.min_separation defaultMinSeparation = MS at hMSpos ⊢
  by_cases hc : V3.lengthSq D < RS * RS
  · rw [if_pos hc]
    by_cases hfb : V3.lengthSq D < MS * MS
    · rw [if_pos hfb]
      have hov : RS - ((if V3.lengthSq (V3.normalizeOrZero
          ((⟨s.v.getD (ij.1 * 3) 0, s.v.getD (ij.1 * 3 + 1) 0,
            s.v.getD (ij.1 * 3 + 2) 0⟩ : V3 ℝ) -
            ⟨s.v.getD (ij.2 * 3) 0, s.v.getD (ij.2 * 3 + 1) 0,
              s.v.getD (ij.2 * 3 + 2) 0⟩)) = 0 then (⟨1, 0, 0⟩ : V3 ℝ)
          else V3.normalizeOrZero
          ((⟨s.v.getD (ij.1 * 3) 0, s.v.getD (ij.1 * 3 + 1) 0,
            s.v.getD (ij.1 * 3 + 2) 0⟩ : V3 ℝ) -
            ⟨s.v.getD (ij.2 * 3) 0, s.v.getD (ij.2 * 3 + 1) 0,
              s.v.getD (ij.2 * 3 + 2) 0⟩), MS) : V3 ℝ × ℝ).2 ≤ 0 := by
        have h1 : V3.norm D < MS := by
          have h2 := Real.sqrt_lt_sqrt (V3.lengthSq_nonneg D) hfb
          rwa [Real.sqrt_mul_self (le_of_lt hMSpos)] at h2
        have h3 : RS < MS := lt_of_le_of_lt hub h1
        show RS - MS ≤ 0
        linarith
      rw [if_pos hov]
      rfl
    · rw [if_neg hfb]
      have hov : RS - ((V3.divScalar D (Real.sqrt (V3.lengthSq D)),
          Real.sqrt (V3.lengthSq D)) : V3 ℝ × ℝ).2 ≤ 0 := by
        show RS - Real.sqrt (V3.lengthSq D) ≤ 0
        have : RS ≤ Real.sqrt (V3.lengthSq D) := hub
        linarith
      rw [if_pos hov]
      rfl
  · rw [if_neg hc]
    rfl

theorem kineticAux_none (mass v : List ℝ) (n i : Nat) (hi : i < n)
    (hbad : mass[i]? = none ∨ v[i]? = none) : kineticAux mass v n = none := by
  induction n with
  | zero => omega
  | succ n ih =>
    rcases Nat.lt_succ_iff_lt_or_eq.mp hi with h | h
    · show (kineticAux mass v n >>= fun acc =>
        mass[n]? >>= fun m => v[n]? >>= fun vi => pure (acc + 0.5 * m * vi * vi)) = none
      rw [ih h]
      rfl
    · subst h
      show (kineticAux mass v i >>= fun acc =>
        mass[i]? >>= fun m => v[i]? >>= fun vi => pure (acc + 0.5 * m * vi * vi)) = none
      cases hk : kineticAux mass v i with
      | none => rfl
      | some acc =>
        rw [someBind]
        rcases hbad with hb | hb
        · rw [hb]
          rfl
        · cases hm : mass[i]? with
          | none => rfl
          | some m =>
            rw [someBind, hb]
            rfl

/-- Claim C9, probe part: with the per-particle mass convention
(`mass.len() == dof/3`) and `dof ≥ 3`, the translational kinetic loop of
`EnergyProbe::measure` reads `mass[dof/3]` out of bounds, so the probe
panics (models as `none`). -/
theorem measure_none_per_particle (s : PhaseSpace ℝ) (laws : LawRegistry ℝ)
    (hm : s.mass.length = s.dof / 3) (h3 : 3 ≤ s.dof) :
    EnergyProbe.measure s laws = none := by
  have hlt : s.dof / 3 < s.dof := by omega
  have hnone : s.mass[s.dof / 3]? = none := List.getElem?_eq_none (by omega)
  have hk := kineticAux_none s.mass s.v s.dof (s.dof / 3) hlt (Or.inl hnone)
  unfold EnergyProbe.measure
  rw [hk]
  rfl

namespace Simulation

/-- Column coordinate written by the lattice loops in `simulation.rs`:
`(col as f64) * spacing - (cols as f64 * spacing / 2.0)` with
`col = i % cols`. -/
def latticeX (cols : Nat) (spacing : ℚ) (i : Nat) : ℚ :=
  (i % cols : Nat) * spacing - (cols : ℚ) * spacing / 2

/-- Row coordinate written by the lattice loops:
`start_y + (row as f64) * spacing` with `row = i / cols`. -/
def latticeY (cols : Nat) (spacing startY : ℚ) (i : Nat) : ℚ :=
  startY + (i / cols : Nat) * spacing

/-- Initialisation loop of `Simulation::new`: for each particle `i`, write
the lattice position (64 columns, spacing `15.0`, starting height `-300.0`)
into `q[3i..3i+3]`, set the three per-DOF masses to `1.0` and the radius to
`spacing / 2`. -/
def newLoop (s : Moo.PhaseSpace ℚ) : Nat → Moo.PhaseSpace ℚ
  | 0 => s
  | k + 1 =>
    let s' := newLoop s k
    { s' with
      q := ((s'.q.set (k * 3) (latticeX 64 15 k)).set (k * 3 + 1)
              (latticeY 64 15 (-300) k)).set (k * 3 + 2) 0
      mass := ((s'.mass.set (k * 3) 1).set (k * 3 + 1) 1).set (k * 3 + 2) 1
      radius := s'.radius.set k (15 / 2) }

/-- The phase space built by `Simulation::new` for `n` particles (the GPU
engine construction is out of scope): `PhaseSpace::new(3n)` followed by the
lattice loop. -/
def newState (n : Nat) : Moo.PhaseSpace ℚ :=
  newLoop (Moo.PhaseSpace.new ℚ (n * 3)) n

/-- Loop of `Simulation::reset`: for each particle `i`, write the lattice
position with 10 columns, spacing `10.0`, starting height `100.0` into
`q[3i..3i+3]` and zero `v[3i..3i+3]`.  No other field is touched. -/
def resetLoop (s : Moo.PhaseSpace ℚ) : Nat → Moo.PhaseSpace ℚ
  | 0 => s
  | k + 1 =>
    let s' := resetLoop s k
    { s' with
      q := ((s'.q.set (k * 3) (latticeX 10 10 k)).set (k * 3 + 1)
              (latticeY 10 10 100 k)).set (k * 3 + 2) 0
      v := ((s'.v.set (k * 3) 0).set (k * 3 + 1) 0).set (k * 3 + 2) 0 }

/-- `Simulation::reset` on the CPU state (the GPU upload is out of scope). -/
def resetState (n : Nat) (s : Moo.PhaseSpace ℚ) : Moo.PhaseSpace ℚ :=
  resetLoop s n

theorem resetLoop_untouched (s : Moo.PhaseSpace ℚ) (k : Nat) :
    (resetLoop s k).dof = s.dof ∧ (resetLoop s k).mass = s.mass ∧
    (resetLoop s k).radius = s.radius ∧ (resetLoop s k).rot = s.rot ∧
    (resetLoop s k).ang_v = s.ang_v ∧ (resetLoop s k).inertia = s.inertia ∧
    (resetLoop s k).t = s.t := by
  induction k with
  | zero => exact ⟨rfl, rfl, rfl, rfl, rfl, rfl, rfl⟩
  | succ k ih => exact ih

theorem resetLoop_lengths (s : Moo.PhaseSpace ℚ) (k : Nat) :
    (resetLoop s k).q.length = s.q.length ∧ (resetLoop s k).v.length = s.v.length := by
  induction k with
  | zero => exact ⟨rfl, rfl⟩
  | succ k ih =>
    show ((((resetLoop s k).q.set _ _).set _ _).set _ _).length = _ ∧
      ((((resetLoop s k).v.set _ _).set _ _).set _ _).length = _
    simp [ih.1, ih.2]

theorem resetLoop_succ_q (s : Moo.PhaseSpace ℚ) (k : Nat) :
    (resetLoop s (k + 1)).q =
      (((resetLoop s k).q.set (k * 3) (latticeX 10 10 k)).set (k * 3 + 1)
        (latticeY 10 10 100 k)).set (k * 3 + 2) 0 := rfl

theorem resetLoop_succ_v (s : Moo.PhaseSpace ℚ) (k : Nat) :
    (resetLoop s (k + 1)).v =
      (((resetLoop s k).v.set (k * 3) 0).set (k * 3 + 1) 0).set (k * 3 + 2) 0 := rfl

theorem resetLoop_getD (s : Moo.PhaseSpace ℚ) (k : Nat)
    (hq : 3 * k ≤ s.q.length) (hv : 3 * k ≤ s.v.length) :
    (∀ j, 3 * k ≤ j →
      (resetLoop s k).q.getD j 0 = s.q.getD j 0 ∧
      (resetLoop s k).v.getD j 0 = s.v.getD j 0) ∧
    (∀ i, i < k →
      (resetLoop s k).q.getD (i * 3) 0 = latticeX 10 10 i ∧
      (resetLoop s k).q.getD (i * 3 + 1) 0 = latticeY 10 10 100 i ∧
      (resetLoop s k).q.getD (i * 3 + 2) 0 = 0 ∧
      (resetLoop s k).v.getD (i * 3) 0 = 0 ∧
      (resetLoop s k).v.getD (i * 3 + 1) 0 = 0 ∧
      (resetLoop s k).v.getD (i * 3 + 2) 0 = 0) := by
  induction k with
  | zero => exact ⟨fun j _ => ⟨rfl, rfl⟩, fun i hi => absurd hi (Nat.not_lt_zero i)⟩
  | succ k ih =>
    obtain ⟨hun, hdone⟩ := ih (by omega) (by omega)
    have hqlen := (resetLoop_lengths s k).1
    have hvlen := (resetLoop_lengths s k).2
    constructor
    · intro j hj
      rw [resetLoop_succ_q, resetLoop_succ_v,
        Moo.getD_set_ne _ _ _ (by omega : k * 3 + 2 ≠ j),
        Moo.getD_set_ne _ _ _ (by omega : k * 3 + 1 ≠ j),
        Moo.getD_set_ne _ _ _ (by omega : k * 3 ≠ j),
        Moo.getD_set_ne _ _ _ (by omega : k * 3 + 2 ≠ j),
        Moo.getD_set_ne _ _ _ (by omega : k * 3 + 1 ≠ j),
        Moo.getD_set_ne _ _ _ (by omega : k * 3 ≠ j)]
      exact hun j (by omega)
    · intro i hi
      rw [resetLoop_succ_q, resetLoop_succ_v]
      rcases Nat.lt_succ_iff_lt_or_eq.mp hi with hik | hik
      · obtain ⟨a1, a2, a3, a4, a5, a6⟩ := hdone i hik
        rw [Moo.getD_set_ne _ _ _ (by omega : k * 3 + 2 ≠ i * 3),
          Moo.getD_set_ne _ _ _ (by omega : k * 3 + 1 ≠ i * 3),
          Moo.getD_set_ne _ _ _ (by omega : k * 3 ≠ i * 3),
          Moo.getD_set_ne _ _ _ (by omega : k * 3 + 2 ≠ i * 3 + 1),
          Moo.getD_set_ne _ _ _ (by omega : k * 3 + 1 ≠ i * 3 + 1),
          Moo.getD_set_ne _ _ _ (by omega : k * 3 ≠ i * 3 + 1),
          Moo.getD_set_ne _ _ _ (by omega : k * 3 + 2 ≠ i * 3 + 2),
          Moo.getD_set_ne _ _ _ (by omega : k * 3 + 1 ≠ i * 3 + 2),
          Moo.getD_set_ne _ _ _ (by omega : k * 3 ≠ i * 3 + 2),
          Moo.getD_set_ne _ _ _ (by omega : k * 3 + 2 ≠ i * 3),
          Moo.getD_set_ne _ _ _ (by omega : k * 3 + 1 ≠ i * 3),
          Moo.getD_set_ne _ _ _ (by omega : k * 3 ≠ i * 3),
          Moo.getD_set_ne _ _ _ (by omega : k * 3 + 2 ≠ i * 3 + 1),
          Moo.getD_set_ne _ _ _ (by omega : k * 3 + 1 ≠ i * 3 + 1),
          Moo.getD_set_ne _ _ _ (by omega : k * 3 ≠ i * 3 + 1),
          Moo.getD_set_ne _ _ _ (by omega : k * 3 + 2 ≠ i * 3 + 2),
          Moo.getD_set_ne _ _ _ (by omega : k * 3 + 1 ≠ i * 3 + 2),
          Moo.getD_set_ne _ _ _ (by omega : k * 3 ≠ i * 3 + 2)]
        exact ⟨a1, a2, a3, a4, a5, a6⟩
      · subst hik
        have e0q : (resetLoop s i).q.getD (i * 3) 0 = s.q.getD (i * 3) 0 :=
          (hun (i * 3) (by omega)).1
        refine ⟨?_, ?_, ?_, ?_, ?_, ?_⟩
        · rw [Moo.getD_set_ne _ _ _ (by omega : i * 3 + 2 ≠ i * 3),
            Moo.getD_set_ne _ _ _ (by omega : i * 3 + 1 ≠ i * 3),
            Moo.getD_set_self _ _ _ _ (by omega)]
        · rw [Moo.getD_set_ne _ _ _ (by omega : i * 3 + 2 ≠ i * 3 + 1),
            Moo.getD_set_self _ _ _ _ (by simp only [List.length_set]; omega)]
        · rw [Moo.getD_set_self _ _ _ _ (by simp only [List.length_set]; omega)]
        · rw [Moo.getD_set_ne _ _ _ (by omega : i * 3 + 2 ≠ i * 3),
            Moo.getD_set_ne _ _ _ (by omega : i * 3 + 1 ≠ i * 3),
            Moo.getD_set_self _ _ _ _ (by omega)]
        · rw [Moo.getD_set_ne _ _ _ (by omega : i * 3 + 2 ≠ i * 3 + 1),
            Moo.getD_set_self _ _ _ _ (by simp only [List.length_set]; omega)]
        · rw [Moo.getD_set_self _ _ _ _ (by simp only [List.length_set]; omega)]

theorem tripleLoop_getD (F : Nat → List ℚ) (A B C : Nat → ℚ)
    (hs : ∀ k, F (k + 1) =
      (((F k).set (k * 3) (A k)).set (k * 3 + 1) (B k)).set (k * 3 + 2) (C k)) :
    ∀ k, 3 * k ≤ (F 0).length →
    (F k).length = (F 0).length ∧
    (∀ j, 3 * k ≤ j → (F k).getD j 0 = (F 0).getD j 0) ∧
    (∀ i, i < k →
      (F k).getD (i * 3) 0 = A i ∧ (F k).getD (i * 3 + 1) 0 = B i ∧
      (F k).getD (i * 3 + 2) 0 = C i) := by
  intro k
  induction k with
  | zero => exact fun _ => ⟨rfl, fun j _ => rfl, fun i hi => absurd hi (Nat.not_lt_zero i)⟩
  | succ k ih =>
    intro hk
    obtain ⟨hlen, hun, hdone⟩ := ih (by omega)
    refine ⟨by rw [hs]; simp [hlen], ?_, ?_⟩
    · intro j hj
      rw [hs, Moo.getD_set_ne _ _ _ (by omega : k * 3 + 2 ≠ j),
        Moo.getD_set_ne _ _ _ (by omega : k * 3 + 1 ≠ j),
        Moo.getD_set_ne _ _ _ (by omega : k * 3 ≠ j)]
      exact hun j (by omega)
    · intro i hi
      rcases Nat.lt_succ_iff_lt_or_eq.mp hi with hik | hik
      · obtain ⟨a1, a2, a3⟩ := hdone i hik
        rw [hs, Moo.getD_set_ne _ _ _ (by omega : k * 3 + 2 ≠ i * 3),
          Moo.getD_set_ne _ _ _ (by omega : k * 3 + 1 ≠ i * 3),
          Moo.getD_set_ne _ _ _ (by omega : k * 3 ≠ i * 3),
          Moo.getD_set_ne _ _ _ (by omega : k * 3 + 2 ≠ i * 3 + 1),
          Moo.getD_set_ne _ _ _ (by omega : k * 3 + 1 ≠ i * 3 + 1),
          Moo.getD_set_ne _ _ _ (by omega : k * 3 ≠ i * 3 + 1),
          Moo.getD_set_ne _ _ _ (by omega : k * 3 + 2 ≠ i * 3 + 2),
          Moo.getD_set_ne _ _ _ (by omega : k * 3 + 1 ≠ i * 3 + 2),
          Moo.getD_set_ne _ _ _ (by omega : k * 3 ≠ i * 3 + 2)]
        exact ⟨a1, a2, a3⟩
      · subst hik
        rw [hs]
        refine ⟨?_, ?_, ?_⟩
        · rw [Moo.getD_set_ne _ _ _ (by omega : i * 3 + 2 ≠ i * 3),
            Moo.getD_set_ne _ _ _ (by omega : i * 3 + 1 ≠ i * 3),
            Moo.getD_set_self _ _ _ _ (by omega)]
        · rw [Moo.getD_set_ne _ _ _ (by omega : i * 3 + 2 ≠ i * 3 + 1),
            Moo.getD_set_self _ _ _ _ (by simp only [List.length_set]; omega)]
        · rw [Moo.getD_set_self _ _ _ _ (by simp only [List.length_set]; omega)]

theorem newLoop_q_getD (n : Nat) (k : Nat) (hk : 3 * k ≤ n * 3) :
    ∀ i, i < k →
      (newLoop (Moo.PhaseSpace.new ℚ (n * 3)) k).q.getD (i * 3) 0 = latticeX 64 15 i ∧
      (newLoop (Moo.PhaseSpace.new ℚ (n * 3)) k).q.getD (i * 3 + 1) 0 =
        latticeY 64 15 (-300) i ∧
      (newLoop (Moo.PhaseSpace.new ℚ (n * 3)) k).q.getD (i * 3 + 2) 0 = 0 := by
  have h := tripleLoop_getD (fun k => (newLoop (Moo.PhaseSpace.new ℚ (n * 3)) k).q)
    (latticeX 64 15) (latticeY 64 15 (-300)) (fun _ => 0) (fun _ => rfl) k
    (by simpa [newLoop, Moo.PhaseSpace.new] using hk)
  exact h.2.2

theorem newLoop_v (s : Moo.PhaseSpace ℚ) (k : Nat) : (newLoop s k).v = s.v := by
  induction k with
  | zero => rfl
  | succ k ih => exact ih

theorem newState_q_length (n : Nat) : (newState n).q.length = n * 3 := by
  have h := (tripleLoop_getD (fun k => (newLoop (Moo.PhaseSpace.new ℚ (n * 3)) k).q)
    (latticeX 64 15) (latticeY 64 15 (-300)) (fun _ => 0) (fun _ => rfl) n
    (by simp [newLoop, Moo.PhaseSpace.new]; omega)).1
  simpa [newState, newLoop, Moo.PhaseSpace.new] using h

theorem c10_reset_uses_other_lattice (n : Nat) (s : Moo.PhaseSpace ℚ)
    (hq : s.q.length = 3 * n) (hv : s.v.length = 3 * n) :
    ((resetState n s).dof = s.dof ∧ (resetState n s).mass = s.mass ∧
     (resetState n s).radius = s.radius ∧ (resetState n s).rot = s.rot ∧
     (resetState n s).ang_v = s.ang_v ∧ (resetState n s).inertia = s.inertia ∧
     (resetState n s).t = s.t) ∧
    (∀ i, i < n →
      (resetState n s).q.getD (i * 3) 0 = latticeX 10 10 i ∧
      (resetState n s).q.getD (i * 3 + 1) 0 = latticeY 10 10 100 i ∧
      (resetState n s).q.getD (i * 3 + 2) 0 = 0 ∧
      (resetState n s).v.getD (i * 3) 0 = 0 ∧
      (resetState n s).v.getD (i * 3 + 1) 0 = 0 ∧
      (resetState n s).v.getD (i * 3 + 2) 0 = 0) ∧
    (∀ i, i < n →
      (newState n).q.getD (i * 3) 0 = latticeX 64 15 i ∧
      (newState n).q.getD (i * 3 + 1) 0 = latticeY 64 15 (-300) i ∧
      (newState n).q.getD (i * 3 + 2) 0 = 0) ∧
    (resetState 1 (newState 1)).q ≠ (newState 1).q := by
  obtain ⟨hu, hd⟩ := resetLoop_getD s n (by omega) (by omega)
  have huntouched := resetLoop_untouched s n
  refine ⟨huntouched, hd, newLoop_q_getD n n (by omega), ?_⟩
  intro hcontra
  have hq1 : (newState 1).q.length = 1 * 3 := newState_q_length 1
  have hv1 : (newState 1).v.length = 3 := by
    show (newLoop (Moo.PhaseSpace.new ℚ (1 * 3)) 1).v.length = 3
    rw [newLoop_v]
    simp [Moo.PhaseSpace.new]
  obtain ⟨-, hd1⟩ := resetLoop_getD (newState 1) 1 (by omega) (by omega)
  have e1 : (resetState 1 (newState 1)).q.getD (0 * 3) 0 = latticeX 10 10 0 :=
    (hd1 0 (by omega)).1
  have e2 : (newState 1).q.getD (0 * 3) 0 = latticeX 64 15 0 :=
    (newLoop_q_getD 1 1 (by omega) 0 (by omega)).1
  rw [hcontra] at e1
  have e3 : latticeX 10 10 0 = latticeX 64 15 0 := e1.symm.trans e2
  norm_num [latticeX] at e3

/-- Concrete phase space used to witness claim C10. -/
def witnessState10 : Moo.PhaseSpace ℚ :=
  ⟨3, [1, 2, 3], [4, 5, 6], [1, 1, 1], [1], [], [], [], 7⟩

end Simulation

namespace Compute

/-- Sort-stage record, from `struct SortParams` in
`platform/compute/mod.rs`: four `u32` fields
`(num_elements, block_height, block_width, algo)`. -/
structure SortParams where
  numElements : Nat
  blockHeight : Nat
  blockWidth : Nat
  algo : Nat
  deriving DecidableEq, Repr

instance : Inhabited SortParams := ⟨⟨0, 0, 0, 0⟩⟩

/-- The `let mut n = 1; while n < count { n *= 2 }` loop of
`ComputeEngine::step`, computing the next power of two. -/
def nextPow2Loop (count n : Nat) : Nat :=
  if h : 0 < n ∧ n < count then nextPow2Loop count (2 * n) else n
termination_by count - n
decreasing_by omega

/-- Smallest power of two reached from `1` by the doubling loop. -/
def nextPow2 (count : Nat) : Nat := nextPow2Loop count 1

/-- The inner `let mut j = k / 2; while j > 0 { …; j /= 2 }` loop: the
descending block widths `j, j/2, …, 1`. -/
def halves (j : Nat) : List Nat :=
  if j = 0 then [] else j :: halves (j / 2)
termination_by j
decreasing_by exact Nat.div_lt_self (by omega) (by omega)

/-- The outer `let mut k = 2; while k <= n { …; k *= 2 }` loop of
`ComputeEngine::step`, pushing one `SortParams` record per `(k, j)` pair in
loop order with `num_elements = count` and `algo = 0`. -/
def sortKLoop (count n k : Nat) : List SortParams :=
  if h : 0 < k ∧ k ≤ n then
    (halves (k / 2)).map (fun j => ⟨count, k, j, 0⟩) ++ sortKLoop count n (2 * k)
  else []
termination_by n + 1 - k
decreasing_by omega

/-- The complete stage-record list the CPU generates for
`particle_count = count`. -/
def sortStages (count : Nat) : List SortParams :=
  sortKLoop count (nextPow2 count) 2

/-- The stage enumeration described by the claim: `block_height`
`k = 2, 4, …, 2^L` and for each `k` the widths `k/2, k/4, …, 1`. -/
def sortStagesSpec (count L : Nat) : List SortParams :=
  (List.range L).flatMap fun m =>
    (List.range (m + 1)).map fun t => ⟨count, 2 ^ (m + 1), 2 ^ (m - t), 0⟩

/-- Little-endian byte encoding of a `u32`. -/
def u32le (x : Nat) : List Nat :=
  [x % 256, x / 256 % 256, x / 65536 % 256, x / 16777216 % 256]

/-- `bytemuck::bytes_of` on a `SortParams` record: the four fields as
little-endian `u32`s, 16 bytes. -/
def encodeParams (p : SortParams) : List Nat :=
  u32le p.numElements ++ u32le p.blockHeight ++ u32le p.blockWidth ++ u32le p.algo

/-- The `raw_bytes` construction of `ComputeEngine::step`: each record's
bytes are appended, then padded with zeros to the 256-byte alignment. -/
def rawBytes (params : List SortParams) : List Nat :=
  params.flatMap fun p => encodeParams p ++ List.replicate (256 - 16) 0

/-- The dynamic offsets used by the dispatch loop of `ComputeEngine::step`:
`i * 256` for each stage index `i` (`let offset = i as u32 * align`). -/
def dispatchOffsets (params : List SortParams) : List Nat :=
  (List.range params.length).map fun i => i * 256

theorem nextPow2Loop_pow (count : Nat) :
    ∀ d a, count - 2 ^ a ≤ d →
      nextPow2Loop count (2 ^ a) = 2 ^ max a (Nat.clog 2 count) := by
  intro d
  induction d with
  | zero =>
    intro a ha
    have h1 : 0 < 2 ^ a := Nat.pos_pow_of_pos a (by omega)
    have hle : count ≤ 2 ^ a := by omega
    rw [nextPow2Loop, dif_neg (by omega)]
    rw [Nat.max_eq_left ((Nat.le_pow_iff_clog_le (by norm_num)).mp hle)]
  | succ d ih =>
    intro a ha
    have h1 : 0 < 2 ^ a := Nat.pos_pow_of_pos a (by omega)
    by_cases h : 2 ^ a < count
    · rw [nextPow2Loop, dif_pos ⟨h1, h⟩]
      have h2 : 2 * 2 ^ a = 2 ^ (a + 1) := by ring
      have h3 : 0 < 2 ^ (a + 1) := Nat.pos_pow_of_pos (a + 1) (by omega)
      rw [h2, ih (a + 1) (by omega)]
      have hcl : a < Nat.clog 2 count := by
        by_contra hle
        push_neg at hle
        have := (Nat.le_pow_iff_clog_le (by norm_num : (1:ℕ) < 2)).mpr hle
        omega
      rw [Nat.max_eq_right (by omega), Nat.max_eq_right (by omega)]
    · push_neg at h
      rw [nextPow2Loop, dif_neg (by omega)]
      rw [Nat.max_eq_left ((Nat.le_pow_iff_clog_le (by norm_num)).mp h)]

theorem nextPow2_eq (count : Nat) :
    nextPow2 count = 2 ^ Nat.clog 2 count := by
  have h := nextPow2Loop_pow count (count - 2 ^ 0) 0 (Nat.le_refl _)
  simpa [nextPow2] using h

theorem halves_zero : halves 0 = [] := by
  rw [halves]
  rfl

theorem halves_one : halves 1 = [1] := by
  rw [halves, if_neg one_ne_zero]
  norm_num
  exact halves_zero

theorem halves_pow (m : Nat) :
    halves (2 ^ m) = (List.range (m + 1)).map fun t => 2 ^ (m - t) := by
  induction m with
  | zero =>
    rw [show (2:Nat) ^ 0 = 1 from rfl, halves_one]
    rfl
  | succ m ih =>
    rw [halves, if_neg (by positivity)]
    have hdiv : 2 ^ (m + 1) / 2 = 2 ^ m := by
      rw [pow_succ, Nat.mul_div_cancel _ (by norm_num)]
    rw [hdiv, ih]
    have htail : List.map (fun t => 2 ^ (m - t)) (List.range (m + 1)) =
        List.map ((fun t => 2 ^ (m + 1 - t)) ∘ Nat.succ) (List.range (m + 1)) := by
      apply List.map_congr_left
      intro t ht
      show (2:Nat) ^ (m - t) = 2 ^ (m + 1 - (t + 1))
      have he : m - t = m + 1 - (t + 1) := by omega
      rw [he]
    conv_rhs => rw [List.range_succ_eq_map]
    rw [List.map_cons, List.map_map, htail]
    simp

theorem flatMap_map_succ (d : Nat) (f : Nat → List SortParams) :
    ((List.range d).map Nat.succ).flatMap f =
      (List.range d).flatMap fun m => f (m + 1) := by
  simp only [List.flatMap_def, List.map_map]
  rfl

theorem sortKLoop_pow (count : Nat) :
    ∀ d a, sortKLoop count (2 ^ (a + d)) (2 ^ (a + 1)) =
      (List.range d).flatMap fun m =>
        (halves (2 ^ (a + m))).map fun j => ⟨count, 2 ^ (a + m + 1), j, 0⟩ := by
  intro d
  induction d with
  | zero =>
    intro a
    rw [sortKLoop, dif_neg]
    · rfl
    · rintro ⟨-, hle⟩
      have hlt : (2:Nat) ^ (a + 0) < 2 ^ (a + 1) :=
        Nat.pow_lt_pow_right (by norm_num) (by omega)
      omega
  | succ d ih =>
    intro a
    have hk : 0 < 2 ^ (a + 1) := Nat.pos_pow_of_pos _ (by omega)
    have hle : 2 ^ (a + 1) ≤ 2 ^ (a + (d + 1)) :=
      Nat.pow_le_pow_right (by omega) (by omega)
    rw [sortKLoop, dif_pos ⟨hk, hle⟩]
    have hdiv : 2 ^ (a + 1) / 2 = 2 ^ a := by
      rw [pow_succ, Nat.mul_div_cancel _ (by norm_num)]
    have hdbl : 2 * 2 ^ (a + 1) = 2 ^ (a + 1 + 1) := by ring
    have hexp : a + (d + 1) = (a + 1) + d := by omega
    rw [hdiv, hdbl, hexp, ih (a + 1)]
    conv_rhs => rw [List.range_succ_eq_map]
    simp only [List.flatMap_cons, flatMap_map_succ, Nat.add_zero]
    congr 1
    apply List.flatMap_congr
    intro m _
    show (halves (2 ^ (a + 1 + m))).map
        (fun j => (⟨count, 2 ^ (a + 1 + m + 1), j, 0⟩ : SortParams)) =
      (halves (2 ^ (a + (m + 1)))).map
        fun j => (⟨count, 2 ^ (a + (m + 1) + 1), j, 0⟩ : SortParams)
    have he : a + 1 + m = a + (m + 1) := by omega
    rw [he]

theorem sortStages_eq_spec (count : Nat) :
    sortStages count = sortStagesSpec count (Nat.clog 2 count) := by
  have h := sortKLoop_pow count (Nat.clog 2 count) 0
  simp only [Nat.zero_add, Nat.pow_one] at h
  rw [sortStages, nextPow2_eq count, h, sortStagesSpec]
  apply List.flatMap_congr
  intro m _
  rw [halves_pow, List.map_map]
  rfl

theorem sortStagesSpec_length (count L : Nat) :
    (sortStagesSpec count L).length * 2 = L * (L + 1) := by
  induction L with
  | zero => rfl
  | succ L ih =>
    have hsplit : sortStagesSpec count (L + 1) =
        sortStagesSpec count L ++
          ((List.range (L + 1)).map fun t =>
            (⟨count, 2 ^ (L + 1), 2 ^ (L - t), 0⟩ : SortParams)) := by
      show (List.range (L + 1)).flatMap
          (fun m => (List.range (m + 1)).map fun t =>
            (⟨count, 2 ^ (m + 1), 2 ^ (m - t), 0⟩ : SortParams)) = _
      conv_lhs => rw [List.range_succ]
      rw [List.flatMap_append, List.flatMap_cons, List.flatMap_nil, List.append_nil]
      rfl
    have h1 : (sortStagesSpec count (L + 1)).length =
        (sortStagesSpec count L).length + (L + 1) := by
      rw [hsplit, List.length_append, List.length_map, List.length_range]
    calc (sortStagesSpec count (L + 1)).length * 2
        = (sortStagesSpec count L).length * 2 + 2 * (L + 1) := by omega
      _ = L * (L + 1) + 2 * (L + 1) := by rw [ih]
      _ = (L + 1) * (L + 1 + 1) := by ring

theorem encodeParams_length (p : SortParams) : (encodeParams p).length = 16 := rfl

theorem rawBytes_length (params : List SortParams) :
    (rawBytes params).length = 256 * params.length := by
  induction params with
  | nil => rfl
  | cons p ps ih =>
    rw [rawBytes, List.flatMap_cons]
    rw [show (rawBytes ps : List Nat) = ps.flatMap
      (fun p => encodeParams p ++ List.replicate (256 - 16) 0) from rfl] at ih
    simp only [List.length_append, encodeParams_length, List.length_replicate, ih,
      List.length_cons]
    omega

theorem rawBytes_record (params : List SortParams) :
    ∀ s, s < params.length →
      ((rawBytes params).drop (256 * s)).take 16 = encodeParams (params.getD s default) := by
  induction params with
  | nil => intro s hs; exact absurd hs (by simp)
  | cons p ps ih =>
    intro s hs
    match s with
    | 0 =>
      rw [rawBytes, List.flatMap_cons, Nat.mul_zero, List.drop_zero, List.append_assoc,
        List.take_append_of_le_length (by rw [encodeParams_length])]
      rw [List.take_of_length_le (by rw [encodeParams_length])]
      rfl
    | s + 1 =>
      have hchunk : (encodeParams p ++ List.replicate (256 - 16) 0).length = 256 := by
        rw [List.length_append, encodeParams_length, List.length_replicate]
      rw [rawBytes, List.flatMap_cons,
        List.drop_append_eq_append_drop, List.drop_eq_nil_of_le (by omega), hchunk,
        List.nil_append,
        show 256 * (s + 1) - 256 = 256 * s from by omega]
      exact ih s (by simpa using hs)

theorem dispatchOffsets_getD (params : List SortParams) :
    ∀ s, s < params.length → (dispatchOffsets params).getD s 0 = s * 256 := by
  intro s hs
  rw [dispatchOffsets, List.getD_eq_getElem?_getD, List.getElem?_map,
    List.getElem?_range hs]
  rfl

end Compute

end Moo

/-- Claim C7: for every particle count `c ≥ 1`, with `n` the smallest power
of two `≥ c`, the CPU side of the GPU step generates exactly
`log2(n)·(log2(n)+1)/2` bitonic-sort stage records, enumerating
`block_height k = 2, 4, …, n` and for each `k` `block_width j = k/2, …, 1`
in that order, writes record `s` at byte offset `256·s` of the single
uniform-buffer image, and dispatches stage `s` with dynamic offset
`256·s`. -/
theorem c7_bitonic_stage_records (count : Nat) (_hc : 1 ≤ count) :
    Moo.Compute.nextPow2 count = 2 ^ Nat.clog 2 count ∧
    count ≤ 2 ^ Nat.clog 2 count ∧
    (∀ M, count ≤ 2 ^ M → Nat.clog 2 count ≤ M) ∧
    Moo.Compute.sortStages count =
      Moo.Compute.sortStagesSpec count (Nat.clog 2 count) ∧
    (Moo.Compute.sortStages count).length =
      Nat.clog 2 count * (Nat.clog 2 count + 1) / 2 ∧
    (Moo.Compute.rawBytes (Moo.Compute.sortStages count)).length =
      256 * (Moo.Compute.sortStages count).length ∧
    (∀ s, s < (Moo.Compute.sortStages count).length →
      ((Moo.Compute.rawBytes (Moo.Compute.sortStages count)).drop (256 * s)).take 16 =
        Moo.Compute.encodeParams ((Moo.Compute.sortStages count).getD s default)) ∧
    (∀ s, s < (Moo.Compute.sortStages count).length →
      (Moo.Compute.dispatchOffsets (Moo.Compute.sortStages count)).getD s 0 = s * 256) := by
  refine ⟨Moo.Compute.nextPow2_eq count,
    Nat.le_pow_clog (by norm_num) count,
    fun M hM => (Nat.le_pow_iff_clog_le (by norm_num)).mp hM,
    Moo.Compute.sortStages_eq_spec count, ?_,
    Moo.Compute.rawBytes_length _,
    Moo.Compute.rawBytes_record _,
    Moo.Compute.dispatchOffsets_getD _⟩
  have h := Moo.Compute.sortStagesSpec_length count (Nat.clog 2 count)
  rw [Moo.Compute.sortStages_eq_spec count]
  omega

/-- Claim C7 witness: the stage-record theorem applied at particle count 5
(next power of two 8, three merge levels, six stage records). -/
theorem c7_bitonic_stage_records_witness :
    1 ≤ 5 ∧
    (Moo.Compute.nextPow2 5 = 2 ^ Nat.clog 2 5 ∧
     5 ≤ 2 ^ Nat.clog 2 5 ∧
     (∀ M, 5 ≤ 2 ^ M → Nat.clog 2 5 ≤ M) ∧
     Moo.Compute.sortStages 5 = Moo.Compute.sortStagesSpec 5 (Nat.clog 2 5) ∧
     (Moo.Compute.sortStages 5).length = Nat.clog 2 5 * (Nat.clog 2 5 + 1) / 2 ∧
     (Moo.Compute.rawBytes (Moo.Compute.sortStages 5)).length =
       256 * (Moo.Compute.sortStages 5).length ∧
     (∀ s, s < (Moo.Compute.sortStages 5).length →
       ((Moo.Compute.rawBytes (Moo.Compute.sortStages 5)).drop (256 * s)).take 16 =
         Moo.Compute.encodeParams ((Moo.Compute.sortStages 5).getD s default)) ∧
     (∀ s, s < (Moo.Compute.sortStages 5).length →
       (Moo.Compute.dispatchOffsets (Moo.Compute.sortStages 5)).getD s 0 = s * 256)) :=
  ⟨by decide, c7_bitonic_stage_records 5 (by decide)⟩

/-- Claim C3: for every position vector `q` and mass vector,
`SPH::potential` computes each particle's density as the sum over all
particles `j` (including `j = i`) of `m_j · C·(h²−r²)³` restricted to
`r² < h²` with `C = 315/(64·π·h⁹)` as precomputed by `SPH::new`, and
returns the sum over particles of `0.5·k·(ρᵢ−ρ₀)²·(mᵢ/ρᵢ)`, where the
volume factor `mᵢ/ρᵢ` is replaced by zero whenever `ρᵢ` is below the
`1e-6` epsilon. -/
theorem c3_sph_potential_matches_spec (h rho0 k : ℝ) (q : List (Moo.Dual ℝ))
    (mass : List ℝ) :
    (Moo.SPH.new h rho0 k).potential q mass = Moo.SPH.potentialSpec h rho0 k q mass ∧
    (Moo.SPH.new h rho0 k).poly6_coeff = 315 / (64 * Real.pi * h ^ 9) := by
  refine ⟨?_, rfl⟩
  unfold Moo.SPH.potential Moo.SPH.potentialSpec
  rw [show (Moo.SPH.new h rho0 k).h = h from rfl,
    show (Moo.SPH.new h rho0 k).rho0 = rho0 from rfl,
    show (Moo.SPH.new h rho0 k).k = k from rfl]
  refine (Moo.foldl_add_eq_sum _ _ _).trans ?_
  rw [Moo.Dual.constant_zero, zero_add]
  apply congrArg List.sum
  apply List.map_congr_left
  intro i hi
  have hmem : i < q.length / 3 := List.mem_range.mp hi
  rw [Moo.getD_range_map _ _ _ _ hmem, Moo.densityCode_eq h rho0 k q mass i]
  exact Moo.u_vol_term_eq _ _ _

/-- Claim C8: each constraint projection is a no-op on states that already
satisfy it: a phase space with no particle below the floor level is left
unchanged by `FloorConstraint::project`, and a phase space whose every pair
`(i, j)` satisfies `‖qᵢ−qⱼ‖ ≥ rᵢ+rⱼ` is left unchanged by
`SphereConstraint::project` (in particular `q` and `v` are unchanged). -/
theorem c8_constraint_projection_noop :
    (∀ (fc : Moo.FloorConstraint) (s : Moo.PhaseSpace ℝ), s.q.length = s.dof →
      (∀ i, i < s.dof / 3 → fc.y_level ≤ s.q.getD (i * 3 + 1) 0) →
      fc.project s = some s) ∧
    (∀ (sc : Moo.SphereConstraint) (s : Moo.PhaseSpace ℝ), s.q.length = s.dof →
      s.v.length = s.dof → s.radius.length = s.dof / 3 →
      (∀ i j, i < j → j < s.dof / 3 →
        s.radius.getD i 0 + s.radius.getD j 0 ≤
          Moo.V3.norm (Moo.posVec s i - Moo.posVec s j)) →
      sc.project s = some s) :=
  ⟨Moo.floor_noop, Moo.sphere_noop⟩

/-- Concrete one-particle state above the floor, witnessing the floor part
of claim C8. -/
def witnessState8f : Moo.PhaseSpace ℝ :=
  ⟨3, [0, 1, 0], [0, 0, 0], [1, 1, 1], [1], [], [], [], 0⟩

/-- Concrete empty state, witnessing the sphere part of claim C8. -/
def witnessState8s : Moo.PhaseSpace ℝ := ⟨0, [], [], [], [], [], [], [], 0⟩

/-- Claim C8 witness: both projections applied at concrete states that
already satisfy the constraints. -/
theorem c8_constraint_projection_noop_witness :
    Moo.FloorConstraint.project ⟨0, 1/2⟩ witnessState8f = some witnessState8f ∧
    Moo.SphereConstraint.project ⟨1/2, 1e-6⟩ witnessState8s = some witnessState8s :=
  ⟨c8_constraint_projection_noop.1 ⟨0, 1/2⟩ witnessState8f rfl
      (by
        intro i hi
        have h1 : i = 0 := by
          have h2 : i < 1 := hi
          omega
        subst h1
        simp [witnessState8f, List.getD]),
    c8_constraint_projection_noop.2 ⟨1/2, 1e-6⟩ witnessState8s rfl rfl rfl
      (fun i j hij hj => absurd hj (Nat.not_lt_zero j))⟩

/-- Three particles, per-particle masses (`mass.len() = 3 = dof/3`):
particle 0 is far away, particles 1 and 2 overlap and approach each other,
so the impulse branch of the pair `(1, 2)` reads `mass[3]` out of bounds. -/
def sphereOOBState : Moo.PhaseSpace ℝ :=
  ⟨9, [100, 0, 0, 0, 0, 0, 1, 0, 0], [0, 0, 0, 1, 0, 0, -1, 0, 0],
    [1, 1, 1], [1, 1, 1], [], [], [], 0⟩

/-- Claim C9: `SphereConstraint::project` and `EnergyProbe::measure` assume
the per-DOF mass convention only.  The probe reads `mass[i]` for every
`i < dof` without checking `mass.len()`, so on every phase space using the
per-particle convention (`mass.len() = dof/3`, `dof ≥ 3`) it indexes out of
bounds and panics (`none`); the constraint's impulse branch reads
`mass[3*i]`, which indexes out of bounds when it is reached for a pair
whose index satisfies `3*i ≥ dof/3`, as on the concrete overlapping state
`sphereOOBState`. -/
theorem c9_per_particle_mass_out_of_bounds :
    (∀ (s : Moo.PhaseSpace ℝ) (laws : Moo.LawRegistry ℝ),
      s.mass.length = s.dof / 3 → 3 ≤ s.dof →
      Moo.EnergyProbe.measure s laws = none) ∧
    Moo.SphereConstraint.project (Moo.SphereConstraint.new (1/2)) sphereOOBState =
      none := by
  refine ⟨Moo.measure_none_per_particle, ?_⟩
  unfold Moo.SphereConstraint.project
  rw [show sphereOOBState.dof / 3 = 3 from rfl,
    show Moo.pairs 3 = [(0, 1), (0, 2), (1, 2)] from rfl]
  rw [List.foldlM_cons]
  have h01 : Moo.SphereConstraint.pairStep (Moo.SphereConstraint.new (1/2))
      (max (Moo.SphereConstraint.new (1/2)).min_separation Moo.defaultMinSeparation)
      sphereOOBState (0, 1) = some sphereOOBState := by
    norm_num [Moo.SphereConstraint.pairStep, sphereOOBState, Moo.V3.lengthSq,
      Moo.V3.dot, Moo.someBind]
  rw [h01, Moo.someBind, List.foldlM_cons]
  have h02 : Moo.SphereConstraint.pairStep (Moo.SphereConstraint.new (1/2))
      (max (Moo.SphereConstraint.new (1/2)).min_separation Moo.defaultMinSeparation)
      sphereOOBState (0, 2) = some sphereOOBState := by
    norm_num [Moo.SphereConstraint.pairStep, sphereOOBState, Moo.V3.lengthSq,
      Moo.V3.dot, Moo.someBind]
  rw [h02, Moo.someBind, List.foldlM_cons]
  have h12 : Moo.SphereConstraint.pairStep (Moo.SphereConstraint.new (1/2))
      (max (Moo.SphereConstraint.new (1/2)).min_separation Moo.defaultMinSeparation)
      sphereOOBState (1, 2) = none := by
    norm_num [Moo.SphereConstraint.pairStep, sphereOOBState, Moo.V3.lengthSq,
      Moo.V3.dot, Moo.V3.divScalar, Moo.V3.smul, Moo.someBind, Moo.noneBind,
      Moo.SphereConstraint.new, Moo.defaultMinSeparation]
  rw [h12]
  rfl

/-- Claim C9 witness: the probe theorem applied at a concrete per-particle
state with an empty law registry, alongside the concrete constraint
instance. -/
theorem c9_per_particle_mass_out_of_bounds_witness :
    sphereOOBState.mass.length = sphereOOBState.dof / 3 ∧
    Moo.EnergyProbe.measure sphereOOBState ⟨[]⟩ = none ∧
    Moo.SphereConstraint.project (Moo.SphereConstraint.new (1/2)) sphereOOBState =
      none :=
  ⟨rfl, c9_per_particle_mass_out_of_bounds.1 sphereOOBState ⟨[]⟩ rfl (by decide),
    c9_per_particle_mass_out_of_bounds.2⟩

/-- Three overlapping collinear particles (radius 1 each, at rest at
`x = 0, 1/2, 1`). -/
noncomputable def c5State : Moo.PhaseSpace ℝ :=
  ⟨9, [0, 0, 0, 1/2, 0, 0, 1, 0, 0], [0, 0, 0, 0, 0, 0, 0, 0, 0],
    [1, 1, 1, 1, 1, 1, 1, 1, 1], [1, 1, 1], [], [], [], 0⟩

/-- The state one `SphereConstraint::project` pass produces from
`c5State`: processing pairs `(0,1)`, `(0,2)`, `(1,2)` in order leaves
particles 0 and 2 only `17/16` apart. -/
noncomputable def c5Final : Moo.PhaseSpace ℝ :=
  { c5State with q := [-(7/8), 0, 0, 35/16, 0, 0, 3/16, 0, 0] }

set_option maxHeartbeats 2000000 in
/-- Claim C5 counterexample: one projection pass of `SphereConstraint`
(default `min_separation = 1e-6`, any twenty-particle claim a fortiori)
does not separate all pairs: on three overlapping particles the passes over
pairs `(0,1)` and `(0,2)` are undone by the pass over `(1,2)`, leaving
`‖q₀ − q₂‖ = 17/16 < r₀ + r₂ − 1e-6 = 2 − 1e-6`. -/
theorem c5_counterexample :
    Moo.SphereConstraint.project (Moo.SphereConstraint.new (1/2)) c5State =
      some c5Final ∧
    Moo.V3.norm (Moo.posVec c5Final 0 - Moo.posVec c5Final 2) <
      c5State.radius.getD 0 0 + c5State.radius.getD 2 0 - 1e-6 := by
  have hsq4 : Real.sqrt ((1:ℝ)/4) = 1/2 := by
    rw [show (1:ℝ)/4 = (1/2)^2 by norm_num, Real.sqrt_sq (by norm_num)]
  have hsq49 : Real.sqrt ((49:ℝ)/16) = 7/4 := by
    rw [show (49:ℝ)/16 = (7/4)^2 by norm_num, Real.sqrt_sq (by norm_num)]
  have hsq64 : Real.sqrt ((1:ℝ)/64) = 1/8 := by
    rw [show (1:ℝ)/64 = (1/8)^2 by norm_num, Real.sqrt_sq (by norm_num)]
  have hsq289 : Real.sqrt ((289:ℝ)/256) = 17/16 := by
    rw [show (289:ℝ)/256 = (17/16)^2 by norm_num, Real.sqrt_sq (by norm_num)]
  constructor
  · unfold Moo.SphereConstraint.project
    rw [show c5State.dof / 3 = 3 from rfl,
      show Moo.pairs 3 = [(0, 1), (0, 2), (1, 2)] from rfl]
    rw [List.foldlM_cons]
    have h01 : Moo.SphereConstraint.pairStep (Moo.SphereConstraint.new (1/2))
        (max (Moo.SphereConstraint.new (1/2)).min_separation Moo.defaultMinSeparation)
        c5State (0, 1) =
        some { c5State with q := [-(3/4), 0, 0, 5/4, 0, 0, 1, 0, 0] } := by
      norm_num [Moo.SphereConstraint.pairStep, c5State, Moo.V3.lengthSq, Moo.V3.dot,
        Moo.V3.divScalar, Moo.V3.smul, Moo.someBind, Moo.noneBind,
        Moo.SphereConstraint.new, Moo.defaultMinSeparation, hsq4]
    rw [h01, Moo.someBind, List.foldlM_cons]
    have h02 : Moo.SphereConstraint.pairStep (Moo.SphereConstraint.new (1/2))
        (max (Moo.SphereConstraint.new (1/2)).min_separation Moo.defaultMinSeparation)
        { c5State with q := [-(3/4), 0, 0, 5/4, 0, 0, 1, 0, 0] } (0, 2) =
        some { c5State with q := [-(7/8), 0, 0, 5/4, 0, 0, 9/8, 0, 0] } := by
      norm_num [Moo.SphereConstraint.pairStep, c5State, Moo.V3.lengthSq, Moo.V3.dot,
        Moo.V3.divScalar, Moo.V3.smul, Moo.someBind, Moo.noneBind,
        Moo.SphereConstraint.new, Moo.defaultMinSeparation, hsq49]
    rw [h02, Moo.someBind, List.foldlM_cons]
    have h12 : Moo.SphereConstraint.pairStep (Moo.SphereConstraint.new (1/2))
        (max (Moo.SphereConstraint.new (1/2)).min_separation Moo.defaultMinSeparation)
        { c5State with q := [-(7/8), 0, 0, 5/4, 0, 0, 9/8, 0, 0] } (1, 2) =
        some c5Final := by
      norm_num [Moo.SphereConstraint.pairStep, c5State, c5Final, Moo.V3.lengthSq,
        Moo.V3.dot, Moo.V3.divScalar, Moo.V3.smul, Moo.someBind, Moo.noneBind,
        Moo.SphereConstraint.new, Moo.defaultMinSeparation, hsq64]
    rw [h12]
    rfl
  · norm_num [Moo.posVec, c5Final, c5State, Moo.V3.norm, Moo.V3.lengthSq, Moo.V3.dot,
      List.getD, hsq289]

/-- Two particles at the same position (the origin), with the derivative
seed placed on DOF index 0 exactly as the integrator sweep does. -/
noncomputable def gravityCollisionInput : List (Moo.Dual Moo.FP) :=
  [⟨Moo.FP.fin 0, Moo.FP.fin 1⟩, Moo.Dual.constant 0, Moo.Dual.constant 0,
   Moo.Dual.constant 0, Moo.Dual.constant 0, Moo.Dual.constant 0]

/-- Claim C2 (violated by the code): at pairwise distance `r = 0` the
colliding pair is claimed to contribute the zero dual, making the law
total.  The code instead divides by `sqrt(r²) = 0` and by `r·r = 0`, so
both channels of `Gravity::potential` are non-finite (IEEE: the value
channel is `1/0·(-G·m₁·m₂) = -∞` and the derivative channel is NaN; in the
`FP` abstraction both are `nan`). -/
theorem c2_gravity_not_total_at_zero_distance :
    (Moo.Gravity.potential ⟨1⟩ gravityCollisionInput [1, 1]).val = Moo.FP.nan ∧
    (Moo.Gravity.potential ⟨1⟩ gravityCollisionInput [1, 1]).der = Moo.FP.nan := by
  constructor <;>
    simp [Moo.Gravity.potential, gravityCollisionInput, Moo.Dual.inv,
      Moo.Dual.constant_def, List.getD,
      show Moo.pairs 2 = [(0, 1)] from rfl]

/-- Claim C10: `Simulation::reset` does not restore the initial state built
by `Simulation::new`: it rewrites positions to a lattice with 10 columns,
spacing `10.0` and starting height `100.0` (whereas construction uses 64
columns, spacing `15.0` and starting height `-300.0`) and zeroes all
velocities, while leaving `mass`, `radius`, `rot`, `ang_v`, `inertia` and
the time field `t` unchanged. -/
theorem c10_reset_does_not_restore (n : Nat) (s : Moo.PhaseSpace ℚ)
    (hq : s.q.length = 3 * n) (hv : s.v.length = 3 * n) :
    ((Moo.Simulation.resetState n s).dof = s.dof ∧
     (Moo.Simulation.resetState n s).mass = s.mass ∧
     (Moo.Simulation.resetState n s).radius = s.radius ∧
     (Moo.Simulation.resetState n s).rot = s.rot ∧
     (Moo.Simulation.resetState n s).ang_v = s.ang_v ∧
     (Moo.Simulation.resetState n s).inertia = s.inertia ∧
     (Moo.Simulation.resetState n s).t = s.t) ∧
    (∀ i, i < n →
      (Moo.Simulation.resetState n s).q.getD (i * 3) 0 = Moo.Simulation.latticeX 10 10 i ∧
      (Moo.Simulation.resetState n s).q.getD (i * 3 + 1) 0 =
        Moo.Simulation.latticeY 10 10 100 i ∧
      (Moo.Simulation.resetState n s).q.getD (i * 3 + 2) 0 = 0 ∧
      (Moo.Simulation.resetState n s).v.getD (i * 3) 0 = 0 ∧
      (Moo.Simulation.resetState n s).v.getD (i * 3 + 1) 0 = 0 ∧
      (Moo.Simulation.resetState n s).v.getD (i * 3 + 2) 0 = 0) ∧
    (∀ i, i < n →
      (Moo.Simulation.newState n).q.getD (i * 3) 0 = Moo.Simulation.latticeX 64 15 i ∧
      (Moo.Simulation.newState n).q.getD (i * 3 + 1) 0 =
        Moo.Simulation.latticeY 64 15 (-300) i ∧
      (Moo.Simulation.newState n).q.getD (i * 3 + 2) 0 = 0) ∧
    (Moo.Simulation.resetState 1 (Moo.Simulation.newState 1)).q ≠
      (Moo.Simulation.newState 1).q :=
  Moo.Simulation.c10_reset_uses_other_lattice n s hq hv

/-- Claim C10 witness: the reset theorem applied to a concrete single
particle state. -/
theorem c10_reset_does_not_restore_witness :
    Moo.Simulation.witnessState10.q.length = 3 * 1 ∧
    (((Moo.Simulation.resetState 1 Moo.Simulation.witnessState10).mass =
        Moo.Simulation.witnessState10.mass) ∧
      ((Moo.Simulation.resetState 1 Moo.Simulation.witnessState10).t =
        Moo.Simulation.witnessState10.t) ∧
      (Moo.Simulation.resetState 1 (Moo.Simulation.newState 1)).q ≠
        (Moo.Simulation.newState 1).q) := by
  have h := c10_reset_does_not_restore 1 Moo.Simulation.witnessState10 rfl rfl
  exact ⟨rfl, h.1.2.1, h.1.2.2.2.2.2.2, h.2.2.2⟩

/-- Claim C6 counterexample: `PhaseSpace::new` accepts a `dof` that is not a
multiple of three and returns a constructed state, with no error reported
and nothing detected; `resize` likewise reshapes to such a `dof`.  This
contradicts the claim that shape errors are detected at construction and
reported to the caller. -/
theorem c6_counterexample :
    (Moo.PhaseSpace.new ℚ 4).dof = 4 ∧ ¬(3 ∣ 4) ∧
    (Moo.PhaseSpace.new ℚ 4).radius.length = 1 ∧
    ((Moo.PhaseSpace.new ℚ 6).resize 4).dof = 4 :=
  ⟨rfl, by decide, rfl, rfl⟩

/-- Claim C6 as amended: phase-space construction performs no validation and
cannot fail.  `PhaseSpace::new(dof)` accepts every `dof` (including values
that are not multiples of three) and returns a state with `q`, `v`, `mass`
of length `dof` and `radius` of length `⌊dof/3⌋`, so mismatched `q`/`mass`
lengths cannot arise from construction, but an invalid `dof` is neither
detected nor reported; `resize` likewise reshapes to any `new_dof` without
any check. -/
theorem c6_construction_never_fails (dof : Nat) (s : Moo.PhaseSpace ℚ) (newDof : Nat) :
    (Moo.PhaseSpace.new ℚ dof).dof = dof ∧
    (Moo.PhaseSpace.new ℚ dof).q.length = dof ∧
    (Moo.PhaseSpace.new ℚ dof).v.length = dof ∧
    (Moo.PhaseSpace.new ℚ dof).mass.length = dof ∧
    (Moo.PhaseSpace.new ℚ dof).radius.length = dof / 3 ∧
    (Moo.PhaseSpace.new ℚ dof).t = 0 ∧
    (s.resize newDof).dof = newDof ∧
    (s.resize newDof).q.length = newDof ∧
    (s.resize newDof).v.length = newDof ∧
    (s.resize newDof).mass.length = newDof ∧
    (s.resize newDof).radius.length = newDof / 3 := by
  refine ⟨rfl, by simp [Moo.PhaseSpace.new], by simp [Moo.PhaseSpace.new],
    by simp [Moo.PhaseSpace.new], by simp [Moo.PhaseSpace.new], rfl, rfl, ?_, ?_, ?_, ?_⟩ <;>
    · simp [Moo.PhaseSpace.resize, Moo.PhaseSpace.resizeList]
      omega

/-- Claim C1: one `SymplecticEuler` step of size `dt` computes, for each DOF
index `i`, the force `F_i` as minus the derivative channel of the registry
potential evaluated with the seed `der = 1` placed on index `i` alone (all
other seeds zero), updates `v_i` to `v_i + (F_i/m_i)*dt`, then updates `q_i`
to `q_i + v_i*dt` using the already-updated velocity, and finally advances
`t` by `dt`. -/
theorem c1_symplectic_euler_step (laws : Moo.LawRegistry ℚ) (s : Moo.PhaseSpace ℚ)
    (dt : ℚ) (hq : s.q.length = s.dof) (hv : s.v.length = s.dof)
    (hm : s.mass.length = s.dof) :
    (Moo.SymplecticEuler.step laws s dt).t = s.t + dt ∧
    ∀ i, i < s.dof →
      (Moo.SymplecticEuler.step laws s dt).v.getD i 0 =
        s.v.getD i 0 + Moo.SymplecticEuler.forceAt laws s.q s.mass i / s.mass.getD i 0 * dt ∧
      (Moo.SymplecticEuler.step laws s dt).q.getD i 0 =
        s.q.getD i 0 + (Moo.SymplecticEuler.step laws s dt).v.getD i 0 * dt := by
  have hF : (Moo.SymplecticEuler.forcesAux laws s.mass (s.q.map Moo.Dual.constant) s.dof).1 =
      (List.range s.dof).map (Moo.SymplecticEuler.forceAt laws s.q s.mass) :=
    Moo.SymplecticEuler.forcesAux_fst laws s.mass s.q s.dof (le_of_eq hq.symm)
  obtain ⟨-, hun, hdone⟩ := Moo.SymplecticEuler.integrateAux_get dt
      (Moo.SymplecticEuler.forcesAux laws s.mass (s.q.map Moo.Dual.constant) s.dof).1
      s.mass s.v s.q s.dof (le_of_eq hv.symm) (le_of_eq hq.symm)
  refine ⟨rfl, fun i hi => ?_⟩
  obtain ⟨h1, h2⟩ := hdone i hi
  have hFi : ((Moo.SymplecticEuler.forcesAux laws s.mass
      (s.q.map Moo.Dual.constant) s.dof).1).getD i 0 =
      Moo.SymplecticEuler.forceAt laws s.q s.mass i := by
    rw [hF, List.getD_eq_getElem?_getD, List.getElem?_map, List.getElem?_range hi]
    rfl
  rw [hFi] at h1 h2
  exact ⟨h1, by rw [show (Moo.SymplecticEuler.step laws s dt).q =
      (Moo.SymplecticEuler.integrateAux dt
        (Moo.SymplecticEuler.forcesAux laws s.mass (s.q.map Moo.Dual.constant) s.dof).1
        s.mass s.v s.q s.dof).2 from rfl, h2,
      show (Moo.SymplecticEuler.step laws s dt).v =
      (Moo.SymplecticEuler.integrateAux dt
        (Moo.SymplecticEuler.forcesAux laws s.mass (s.q.map Moo.Dual.constant) s.dof).1
        s.mass s.v s.q s.dof).1 from rfl, h1]⟩

/-- Concrete three-DOF phase space used to witness claim C1. -/
def witnessState1 : Moo.PhaseSpace ℚ :=
  ⟨3, [1, 2, 3], [4, 5, 6], [1, 2, 4], [1], [], [], [], 0⟩

/-- Claim C1 witness: the step theorem applied to a concrete state, law
registry and step size. -/
theorem c1_symplectic_euler_step_witness :
    witnessState1.q.length = witnessState1.dof ∧
    ((Moo.SymplecticEuler.step ⟨[]⟩ witnessState1 (1/2)).t = witnessState1.t + 1/2 ∧
      ∀ i, i < witnessState1.dof →
        (Moo.SymplecticEuler.step ⟨[]⟩ witnessState1 (1/2)).v.getD i 0 =
          witnessState1.v.getD i 0 +
            Moo.SymplecticEuler.forceAt ⟨[]⟩ witnessState1.q witnessState1.mass i /
              witnessState1.mass.getD i 0 * (1/2) ∧
        (Moo.SymplecticEuler.step ⟨[]⟩ witnessState1 (1/2)).q.getD i 0 =
          witnessState1.q.getD i 0 +
            (Moo.SymplecticEuler.step ⟨[]⟩ witnessState1 (1/2)).v.getD i 0 * (1/2)) :=
  ⟨rfl, c1_symplectic_euler_step ⟨[]⟩ witnessState1 (1/2) rfl rfl rfl⟩

/-- Claim C4: for all `Dual` values `a` and `b` with `b.val ≠ 0`,
`(a / b) * b` equals `a` in both the value channel and the derivative
channel, exactly, over rational arithmetic. -/
theorem c4_div_mul_cancel (a b : Moo.Dual ℚ) (hb : b.val ≠ 0) :
    ((a / b) * b).val = a.val ∧ ((a / b) * b).der = a.der := by
  constructor
  · simp only [Moo.Dual.mul_val, Moo.Dual.div_val]
    field_simp
  · simp only [Moo.Dual.mul_der, Moo.Dual.div_der, Moo.Dual.div_val]
    field_simp
    ring

/-- Claim C4 witness: the cancellation law applied at `a = 1 + 2ε`,
`b = 3 + 5ε`. -/
theorem c4_div_mul_cancel_witness :
    (⟨3, 5⟩ : Moo.Dual ℚ).val ≠ 0 ∧
    ((((⟨1, 2⟩ : Moo.Dual ℚ) / ⟨3, 5⟩) * ⟨3, 5⟩).val = (⟨1, 2⟩ : Moo.Dual ℚ).val ∧
      (((⟨1, 2⟩ : Moo.Dual ℚ) / ⟨3, 5⟩) * ⟨3, 5⟩).der = (⟨1, 2⟩ : Moo.Dual ℚ).der) :=
  ⟨by decide, c4_div_mul_cancel ⟨1, 2⟩ ⟨3, 5⟩ (by decide)⟩


theorem norm_shift_pairs (D U : Moo.V3 ℝ) (c : ℝ) (a0 a1 a2 b0 b1 b2 : ℝ)
    (hDx : D.x = a0 - b0) (hDy : D.y = a1 - b1) (hDz : D.z = a2 - b2) :
    ((⟨a0 + c * U.x, a1 + c * U.y, a2 + c * U.z⟩ : Moo.V3 ℝ) -
        ⟨b0 - c * U.x, b1 - c * U.y, b2 - c * U.z⟩) =
      D + Moo.V3.smul (2 * c) U := by
  simp only [Moo.V3.sub_def, Moo.V3.add_def, Moo.V3.smul, Moo.V3.mk.injEq]
  exact ⟨by rw [hDx]; ring, by rw [hDy]; ring, by rw [hDz]; ring⟩

theorem getD_pairSets (l : List ℝ) (hlen : l.length = 6) (a0 a1 a2 b0 b1 b2 : ℝ) :
    ((((((l.set (0 * 3) a0).set (0 * 3 + 1) a1).set (0 * 3 + 2) a2).set (1 * 3) b0).set
        (1 * 3 + 1) b1).set (1 * 3 + 2) b2).getD (0 * 3) 0 = a0 ∧
    ((((((l.set (0 * 3) a0).set (0 * 3 + 1) a1).set (0 * 3 + 2) a2).set (1 * 3) b0).set
        (1 * 3 + 1) b1).set (1 * 3 + 2) b2).getD (0 * 3 + 1) 0 = a1 ∧
    ((((((l.set (0 * 3) a0).set (0 * 3 + 1) a1).set (0 * 3 + 2) a2).set (1 * 3) b0).set
        (1 * 3 + 1) b1).set (1 * 3 + 2) b2).getD (0 * 3 + 2) 0 = a2 ∧
    ((((((l.set (0 * 3) a0).set (0 * 3 + 1) a1).set (0 * 3 + 2) a2).set (1 * 3) b0).set
        (1 * 3 + 1) b1).set (1 * 3 + 2) b2).getD (1 * 3) 0 = b0 ∧
    ((((((l.set (0 * 3) a0).set (0 * 3 + 1) a1).set (0 * 3 + 2) a2).set (1 * 3) b0).set
        (1 * 3 + 1) b1).set (1 * 3 + 2) b2).getD (1 * 3 + 1) 0 = b1 ∧
    ((((((l.set (0 * 3) a0).set (0 * 3 + 1) a1).set (0 * 3 + 2) a2).set (1 * 3) b0).set
        (1 * 3 + 1) b1).set (1 * 3 + 2) b2).getD (1 * 3 + 2) 0 = b2 := by
  refine ⟨?_, ?_, ?_, ?_, ?_, ?_⟩
  · rw [Moo.getD_set_ne _ _ _ (by omega), Moo.getD_set_ne _ _ _ (by omega),
      Moo.getD_set_ne _ _ _ (by omega), Moo.getD_set_ne _ _ _ (by omega),
      Moo.getD_set_ne _ _ _ (by omega),
      Moo.getD_set_self _ _ _ _ (by omega)]
  · rw [Moo.getD_set_ne _ _ _ (by omega), Moo.getD_set_ne _ _ _ (by omega),
      Moo.getD_set_ne _ _ _ (by omega), Moo.getD_set_ne _ _ _ (by omega),
      Moo.getD_set_self _ _ _ _ (by simp only [List.length_set]; omega)]
  · rw [Moo.getD_set_ne _ _ _ (by omega), Moo.getD_set_ne _ _ _ (by omega),
      Moo.getD_set_ne _ _ _ (by omega),
      Moo.getD_set_self _ _ _ _ (by simp only [List.length_set]; omega)]
  · rw [Moo.getD_set_ne _ _ _ (by omega), Moo.getD_set_ne _ _ _ (by omega),
      Moo.getD_set_self _ _ _ _ (by simp only [List.length_set]; omega)]
  · rw [Moo.getD_set_ne _ _ _ (by omega),
      Moo.getD_set_self _ _ _ _ (by simp only [List.length_set]; omega)]
  · rw [Moo.getD_set_self _ _ _ _ (by simp only [List.length_set]; omega)]

set_option maxHeartbeats 1000000 in
/-- Claim C5, amended: for a two-particle phase space (six degrees of
freedom, per-DOF masses and velocities, one radius per particle), a single
`SphereConstraint::project` pass under the default constructor succeeds and
leaves the pair at distance at least `r₀ + r₁ − 2·10⁻⁶`: the positional
half-correction pushes each endpoint half the overlap along the contact
normal, and only the sub-`min_separation` fallback normal can lose up to
`2·min_separation` of separation. -/
theorem c5_two_particle_separated (e : ℝ) (s : Moo.PhaseSpace ℝ)
    (hdof : s.dof = 6) (hq : s.q.length = 6) (hv : s.v.length = 6)
    (hr : s.radius.length = 2) (hm : s.mass.length = 6) :
    ∃ s1, (Moo.SphereConstraint.new e).project s = some s1 ∧
      s.radius.getD 0 0 + s.radius.getD 1 0 - 2e-6 ≤
        Moo.V3.norm (Moo.posVec s1 0 - Moo.posVec s1 1) := by
  have hMS : max (Moo.SphereConstraint.new e).min_separation Moo.defaultMinSeparation
      = (1e-6 : ℝ) := by
    rw [show (Moo.SphereConstraint.new e).min_separation = Moo.defaultMinSeparation
      from rfl, max_self]
    rfl
  suffices h : ∃ s1,
      (Moo.SphereConstraint.new e).pairStep (1e-6) s (0, 1) = some s1 ∧
      s.radius.getD 0 0 + s.radius.getD 1 0 - 2e-6 ≤
        Moo.V3.norm (Moo.posVec s1 0 - Moo.posVec s1 1) by
    obtain ⟨s1, hs1, hb⟩ := h
    refine ⟨s1, ?_, hb⟩
    unfold Moo.SphereConstraint.project
    rw [hdof, show (6:Nat) / 3 = 2 from rfl, show Moo.pairs 2 = [(0, 1)] from rfl, hMS,
      List.foldlM_cons, hs1, Moo.someBind]
    rfl
  unfold Moo.SphereConstraint.pairStep
  dsimp only
  simp only [Moo.getElem?_eq_getD s.q (0 * 3) 0 (by rw [hq]; norm_num),
    Moo.getElem?_eq_getD s.q (0 * 3 + 1) 0 (by rw [hq]; norm_num),
    Moo.getElem?_eq_getD s.q (0 * 3 + 2) 0 (by rw [hq]; norm_num),
    Moo.getElem?_eq_getD s.q (1 * 3) 0 (by rw [hq]; norm_num),
    Moo.getElem?_eq_getD s.q (1 * 3 + 1) 0 (by rw [hq]; norm_num),
    Moo.getElem?_eq_getD s.q (1 * 3 + 2) 0 (by rw [hq]; norm_num),
    Moo.getElem?_eq_getD s.radius 0 0 (by rw [hr]; norm_num),
    Moo.getElem?_eq_getD s.radius 1 0 (by rw [hr]; norm_num),
    Moo.getElem?_eq_getD s.v (0 * 3) 0 (by rw [hv]; norm_num),
    Moo.getElem?_eq_getD s.v (0 * 3 + 1) 0 (by rw [hv]; norm_num),
    Moo.getElem?_eq_getD s.v (0 * 3 + 2) 0 (by rw [hv]; norm_num),
    Moo.getElem?_eq_getD s.v (1 * 3) 0 (by rw [hv]; norm_num),
    Moo.getElem?_eq_getD s.v (1 * 3 + 1) 0 (by rw [hv]; norm_num),
    Moo.getElem?_eq_getD s.v (1 * 3 + 2) 0 (by rw [hv]; norm_num),
    Moo.getElem?_eq_getD s.mass (0 * 3) 0 (by rw [hm]; norm_num),
    Moo.getElem?_eq_getD s.mass (1 * 3) 0 (by rw [hm]; norm_num),
    Moo.someBind]
  generalize hD : ((⟨s.q.getD (0 * 3) 0, s.q.getD (0 * 3 + 1) 0, s.q.getD (0 * 3 + 2) 0⟩ :
      Moo.V3 ℝ) -
      ⟨s.q.getD (1 * 3) 0, s.q.getD (1 * 3 + 1) 0, s.q.getD (1 * 3 + 2) 0⟩) = D
  generalize hRV : ((⟨s.v.getD (0 * 3) 0, s.v.getD (0 * 3 + 1) 0, s.v.getD (0 * 3 + 2) 0⟩ :
      Moo.V3 ℝ) -
      ⟨s.v.getD (1 * 3) 0, s.v.getD (1 * 3 + 1) 0, s.v.getD (1 * 3 + 2) 0⟩) = RV
  generalize hRS : s.radius.getD 0 0 + s.radius.getD 1 0 = RS
  generalize hU : (if Moo.V3.lengthSq (Moo.V3.normalizeOrZero RV) = 0 then
      (⟨1, 0, 0⟩ : Moo.V3 ℝ) else Moo.V3.normalizeOrZero RV) = U
  by_cases hcol : Moo.V3.lengthSq D < RS * RS
  case neg =>
    rw [if_neg hcol]
    refine ⟨s, rfl, ?_⟩
    have hPD : Moo.posVec s 0 - Moo.posVec s 1 = D := hD
    rw [hPD]
    have h1 : RS * RS ≤ Moo.V3.lengthSq D := not_lt.mp hcol
    have h2 : Real.sqrt (RS * RS) ≤ Real.sqrt (Moo.V3.lengthSq D) := Real.sqrt_le_sqrt h1
    rw [Real.sqrt_mul_self_eq_abs] at h2
    rw [show Moo.V3.norm D = Real.sqrt (Moo.V3.lengthSq D) from rfl]
    have h4 := le_abs_self RS
    linarith
  case pos =>
    rw [if_pos hcol]
    by_cases hfb : Moo.V3.lengthSq D < 1e-6 * 1e-6
    · rw [if_pos hfb]
      dsimp only [Moo.V3.smul]
      by_cases hov : RS - 1e-6 ≤ 0
      · rw [if_pos hov]
        refine ⟨s, rfl, ?_⟩
        have hPD : Moo.posVec s 0 - Moo.posVec s 1 = D := hD
        rw [hPD]
        have h0 : 0 ≤ Moo.V3.norm D := Moo.V3.norm_nonneg D
        linarith
      · rw [if_neg hov]
        have hpos : 0 < RS - 1e-6 := not_le.mp hov
        have hUnorm : Moo.V3.norm U = 1 := by
          by_cases hz : Moo.V3.lengthSq (Moo.V3.normalizeOrZero RV) = 0
          · rw [if_pos hz] at hU
            rw [← hU]
            show Real.sqrt (Moo.V3.lengthSq ⟨1, 0, 0⟩) = 1
            rw [show Moo.V3.lengthSq (⟨1, 0, 0⟩ : Moo.V3 ℝ) = 1 by
              simp [Moo.V3.lengthSq, Moo.V3.dot], Real.sqrt_one]
          · rw [if_neg hz] at hU
            rw [← hU]
            have hRVnz : Moo.V3.lengthSq RV ≠ 0 := by
              intro h0
              apply hz
              rw [Moo.V3.normalizeOrZero, if_pos h0]
              show (0 : ℝ) * 0 + 0 * 0 + 0 * 0 = 0
              ring
            exact Moo.V3.norm_normalizeOrZero RV hRVnz
        have hnD : Moo.V3.norm D < 1e-6 := by
          show Real.sqrt (Moo.V3.lengthSq D) < 1e-6
          have h1 := Real.sqrt_lt_sqrt (Moo.V3.lengthSq_nonneg D) hfb
          rwa [Real.sqrt_mul_self (by norm_num : (0:ℝ) ≤ 1e-6)] at h1
        have hDx : D.x = s.q.getD (0 * 3) 0 - s.q.getD (1 * 3) 0 := by
          rw [← hD, Moo.V3.sub_def]
        have hDy : D.y = s.q.getD (0 * 3 + 1) 0 - s.q.getD (1 * 3 + 1) 0 := by
          rw [← hD, Moo.V3.sub_def]
        have hDz : D.z = s.q.getD (0 * 3 + 2) 0 - s.q.getD (1 * 3 + 2) 0 := by
          rw [← hD, Moo.V3.sub_def]
        by_cases himp : Moo.V3.dot RV U < 0
        · rw [if_pos himp]
          refine ⟨_, rfl, ?_⟩
          simp only [Moo.posVec]
          rw [(getD_pairSets s.q hq _ _ _ _ _ _).1,
            (getD_pairSets s.q hq _ _ _ _ _ _).2.1,
            (getD_pairSets s.q hq _ _ _ _ _ _).2.2.1,
            (getD_pairSets s.q hq _ _ _ _ _ _).2.2.2.1,
            (getD_pairSets s.q hq _ _ _ _ _ _).2.2.2.2.1,
            (getD_pairSets s.q hq _ _ _ _ _ _).2.2.2.2.2,
            norm_shift_pairs D U ((RS - 1e-6) * 0.5) _ _ _ _ _ _ hDx hDy hDz,
            show (2 : ℝ) * ((RS - 1e-6) * 0.5) = RS - 1e-6 by ring]
          have hrev := Moo.V3.norm_add_ge D (Moo.V3.smul (RS - 1e-6) U)
          rw [Moo.V3.norm_smul, hUnorm, abs_of_pos hpos, mul_one] at hrev
          linarith
        · rw [if_neg himp]
          refine ⟨_, rfl, ?_⟩
          simp only [Moo.posVec]
          rw [(getD_pairSets s.q hq _ _ _ _ _ _).1,
            (getD_pairSets s.q hq _ _ _ _ _ _).2.1,
            (getD_pairSets s.q hq _ _ _ _ _ _).2.2.1,
            (getD_pairSets s.q hq _ _ _ _ _ _).2.2.2.1,
            (getD_pairSets s.q hq _ _ _ _ _ _).2.2.2.2.1,
            (getD_pairSets s.q hq _ _ _ _ _ _).2.2.2.2.2,
            norm_shift_pairs D U ((RS - 1e-6) * 0.5) _ _ _ _ _ _ hDx hDy hDz,
            show (2 : ℝ) * ((RS - 1e-6) * 0.5) = RS - 1e-6 by ring]
          have hrev := Moo.V3.norm_add_ge D (Moo.V3.smul (RS - 1e-6) U)
          rw [Moo.V3.norm_smul, hUnorm, abs_of_pos hpos, mul_one] at hrev
          linarith
    · rw [if_neg hfb]
      dsimp only [Moo.V3.smul]
      by_cases hov : RS - Real.sqrt (Moo.V3.lengthSq D) ≤ 0
      · rw [if_pos hov]
        refine ⟨s, rfl, ?_⟩
        have hPD : Moo.posVec s 0 - Moo.posVec s 1 = D := hD
        rw [hPD]
        rw [show Moo.V3.norm D = Real.sqrt (Moo.V3.lengthSq D) from rfl]
        linarith
      · rw [if_neg hov]
        have hL : (1e-6 : ℝ) * 1e-6 ≤ Moo.V3.lengthSq D := not_lt.mp hfb
        have hLpos : 0 < Moo.V3.lengthSq D := lt_of_lt_of_le (by norm_num) hL
        have hdpos : 0 < Real.sqrt (Moo.V3.lengthSq D) := Real.sqrt_pos.mpr hLpos
        have hdne : Real.sqrt (Moo.V3.lengthSq D) ≠ 0 := ne_of_gt hdpos
        have hdRS : Real.sqrt (Moo.V3.lengthSq D) < RS := by
          have := not_le.mp hov
          linarith
        have hDx : D.x = s.q.getD (0 * 3) 0 - s.q.getD (1 * 3) 0 := by
          rw [← hD, Moo.V3.sub_def]
        have hDy : D.y = s.q.getD (0 * 3 + 1) 0 - s.q.getD (1 * 3 + 1) 0 := by
          rw [← hD, Moo.V3.sub_def]
        have hDz : D.z = s.q.getD (0 * 3 + 2) 0 - s.q.getD (1 * 3 + 2) 0 := by
          rw [← hD, Moo.V3.sub_def]
        by_cases himp : Moo.V3.dot RV (Moo.V3.divScalar D (Real.sqrt (Moo.V3.lengthSq D))) < 0
        · rw [if_pos himp]
          refine ⟨_, rfl, ?_⟩
          simp only [Moo.posVec]
          rw [(getD_pairSets s.q hq _ _ _ _ _ _).1,
            (getD_pairSets s.q hq _ _ _ _ _ _).2.1,
            (getD_pairSets s.q hq _ _ _ _ _ _).2.2.1,
            (getD_pairSets s.q hq _ _ _ _ _ _).2.2.2.1,
            (getD_pairSets s.q hq _ _ _ _ _ _).2.2.2.2.1,
            (getD_pairSets s.q hq _ _ _ _ _ _).2.2.2.2.2,
            norm_shift_pairs D (Moo.V3.divScalar D (Real.sqrt (Moo.V3.lengthSq D)))
              ((RS - Real.sqrt (Moo.V3.lengthSq D)) * 0.5) _ _ _ _ _ _ hDx hDy hDz]
          have hvec : D + Moo.V3.smul (2 * ((RS - Real.sqrt (Moo.V3.lengthSq D)) * 0.5))
              (Moo.V3.divScalar D (Real.sqrt (Moo.V3.lengthSq D))) =
              Moo.V3.smul (RS / Real.sqrt (Moo.V3.lengthSq D)) D := by
            simp only [Moo.V3.add_def, Moo.V3.smul, Moo.V3.divScalar, Moo.V3.mk.injEq]
            refine ⟨?_, ?_, ?_⟩ <;> (field_simp; ring)
          rw [hvec, Moo.V3.norm_smul,
            show Moo.V3.norm D = Real.sqrt (Moo.V3.lengthSq D) from rfl,
            abs_of_pos (div_pos (lt_trans hdpos hdRS) hdpos),
            div_mul_cancel₀ _ (ne_of_gt hdpos)]
          linarith
        · rw [if_neg himp]
          refine ⟨_, rfl, ?_⟩
          simp only [Moo.posVec]
          rw [(getD_pairSets s.q hq _ _ _ _ _ _).1,
            (getD_pairSets s.q hq _ _ _ _ _ _).2.1,
            (getD_pairSets s.q hq _ _ _ _ _ _).2.2.1,
            (getD_pairSets s.q hq _ _ _ _ _ _).2.2.2.1,
            (getD_pairSets s.q hq _ _ _ _ _ _).2.2.2.2.1,
            (getD_pairSets s.q hq _ _ _ _ _ _).2.2.2.2.2,
            norm_shift_pairs D (Moo.V3.divScalar D (Real.sqrt (Moo.V3.lengthSq D)))
              ((RS - Real.sqrt (Moo.V3.lengthSq D)) * 0.5) _ _ _ _ _ _ hDx hDy hDz]
          have hvec : D + Moo.V3.smul (2 * ((RS - Real.sqrt (Moo.V3.lengthSq D)) * 0.5))
              (Moo.V3.divScalar D (Real.sqrt (Moo.V3.lengthSq D))) =
              Moo.V3.smul (RS / Real.sqrt (Moo.V3.lengthSq D)) D := by
            simp only [Moo.V3.add_def, Moo.V3.smul, Moo.V3.divScalar, Moo.V3.mk.injEq]
            refine ⟨?_, ?_, ?_⟩ <;> (field_simp; ring)
          rw [hvec, Moo.V3.norm_smul,
            show Moo.V3.norm D = Real.sqrt (Moo.V3.lengthSq D) from rfl,
            abs_of_pos (div_pos (lt_trans hdpos hdRS) hdpos),
            div_mul_cancel₀ _ (ne_of_gt hdpos)]
          linarith


/-- Concrete overlapping two-particle phase space used to witness the
amended claim C5. -/
def witnessState5 : Moo.PhaseSpace ℝ :=
  ⟨6, [0, 0, 0, 1, 0, 0], [0, 0, 0, 0, 0, 0], [1, 1, 1, 1, 1, 1], [1, 1], [], [], [], 0⟩

/-- Claim C5 witness: the amended two-particle separation theorem applied
to a concrete pair of overlapping unit spheres. -/
theorem c5_two_particle_separated_witness :
    witnessState5.dof = 6 ∧ witnessState5.q.length = 6 ∧ witnessState5.v.length = 6 ∧
    witnessState5.radius.length = 2 ∧ witnessState5.mass.length = 6 ∧
    ∃ s1, (Moo.SphereConstraint.new 0.5).project witnessState5 = some s1 ∧
      witnessState5.radius.getD 0 0 + witnessState5.radius.getD 1 0 - 2e-6 ≤
        Moo.V3.norm (Moo.posVec s1 0 - Moo.posVec s1 1) :=
  ⟨rfl, rfl, rfl, rfl, rfl,
    c5_two_particle_separated 0.5 witnessState5 rfl rfl rfl rfl rfl⟩
